import Mathlib

/-!
Backup.js: shallow embedding of the save-game backup service.

The development embeds `src/files/srv/src/lib/Backup.js`:

* JavaScript strings are lists of characters (`Str`); string comparison is the
  JavaScript one, lexicographic on UTF-16 code units.
* The filesystem collaborator (`fs-extra`) is a finite map from resolved
  absolute paths (lists of components) to nodes, with the operations the
  module consumes: `readdirSync`, `lstatSync(..).isDirectory()`, `copySync`,
  `removeSync`.  An operation may also fail for an external reason (permission,
  full disk); such failures are given by a `Faults` oracle.
* `moment(ts).startOf('day').format()` is taken as a parameter `dayOf`, and the
  key of the current day, `moment().startOf('day').format()`, as `today`.
* A JavaScript exception is an explicit `throw` outcome carrying the disk as it
  was when the exception was raised.
-/

namespace Backup

/-! ## Strings -/

/-- JavaScript string, as the list of its characters. -/
abbrev Str := List Char

/-- UTF-16 code units of one character. -/
def utf16 (c : Char) : List Nat :=
  if c.toNat < 0x10000 then [c.toNat]
  else [0xD800 + (c.toNat - 0x10000) / 0x400, 0xDC00 + (c.toNat - 0x10000) % 0x400]

/-- UTF-16 code units of a string. -/
def units : Str → List Nat
  | [] => []
  | c :: cs => utf16 c ++ units cs

/-- Lexicographic `<` on code-unit sequences. -/
def lexLt : List Nat → List Nat → Bool
  | [], [] => false
  | [], _ :: _ => true
  | _ :: _, [] => false
  | a :: as, b :: bs => if a < b then true else if b < a then false else lexLt as bs

/-- JavaScript `a < b` on strings. -/
def strLt (a b : Str) : Bool := lexLt (units a) (units b)

/-- JavaScript `a <= b` on strings (`!(b < a)`, the order being total). -/
def strLe (a b : Str) : Bool := !strLt b a

/-- `s.split(c)` for a one-character separator: always at least one segment. -/
def split (c : Char) : Str → List Str
  | [] => [[]]
  | x :: xs =>
    if x = c then [] :: split c xs
    else match split c xs with
      | [] => [[x]]
      | p :: ps => (x :: p) :: ps

/-- `s.replace(pat, rep)` for a string pattern: only the first occurrence is
replaced. -/
def replaceFirst (pat rep : Str) : Str → Str
  | [] => if pat = [] then rep else []
  | c :: cs =>
    if pat.isPrefixOf (c :: cs) then rep ++ (c :: cs).drop pat.length
    else c :: replaceFirst pat rep cs

/-- The string `'.savegame'`. -/
def dotSavegame : Str := ".savegame".toList

/-- The string `String(undefined)`, which `replace` uses when it is called
without a replacement argument. -/
def undefinedStr : Str := "undefined".toList

/-! ## Backup entries -/

/-- The `type` field of an entry. -/
inductive BackupType where
  | daily
  | incremental
  deriving DecidableEq, Repr

/-- One element of the `backups` array. -/
structure Entry where
  name : Str
  path : Str
  timestamp : Str
  type : BackupType
  deriving DecidableEq, Repr

/-- `first(parts)` of `f.split('$')`. -/
def nameOf (f : Str) : Str := (split '$' f).headD []

/-- `get(parts, 1, '').replace('.savegame')`: the call has no replacement
argument, so the first `'.savegame'` is replaced by `'undefined'`. -/
def timestampOf (f : Str) : Str :=
  replaceFirst dotSavegame undefinedStr ((split '$' f).getD 1 [])

/-- The string `'/backup/daily/'`. -/
def dailyPrefix : Str := "/backup/daily/".toList

/-- The string `'/backup/'`. -/
def backupPrefix : Str := "/backup/".toList

/-- The map callback of `load` over `readdirSync('/backup/daily')`. -/
def dailyEntry (f : Str) : Entry :=
  { name := nameOf f, path := dailyPrefix ++ f, timestamp := timestampOf f, type := .daily }

/-- The map callback of `load` over the non-directories of `/backup`. -/
def incrementalEntry (f : Str) : Entry :=
  { name := nameOf f, path := backupPrefix ++ f, timestamp := timestampOf f,
    type := .incremental }

/-! ## `orderBy(xs, ['timestamp'], ['asc'])` -/

/-- The order lodash sorts by: `a.timestamp <= b.timestamp`. -/
def tsLe (a b : Entry) : Prop := strLe a.timestamp b.timestamp = true

instance : DecidableRel tsLe := fun a b =>
  inferInstanceAs (Decidable (strLe a.timestamp b.timestamp = true))

/-- Insert `a` before the first element that is not smaller: with equal
timestamps the element that came first stays first. -/
def orderedInsert (a : Entry) : List Entry → List Entry
  | [] => [a]
  | b :: l => if strLe a.timestamp b.timestamp then a :: b :: l else b :: orderedInsert a l

/-- `orderBy(xs, ['timestamp'], ['asc'])`: lodash compares the keys with `<` and
`>` and breaks ties by the original index, which is a stable sort. -/
def orderBy : List Entry → List Entry
  | [] => []
  | a :: l => orderedInsert a (orderBy l)

/-! ## The cleanup plan -/

/-- The object `{ move, remove }` built by the `reduce` of `cleanup`.  The
initial accumulator `{}` is the plan with both collections empty, which is how
every later `get(files, 'move', [])` and `get(files, 'remove', [])` reads it. -/
structure Plan where
  move : List Entry
  remove : List Entry
  deriving DecidableEq, Repr

/-- Add `b` to the group of key `k`, creating the group at the end when the key
is new. -/
def groupInsert (k : Str) (b : Entry) : List (Str × List Entry) → List (Str × List Entry)
  | [] => [(k, [b])]
  | g :: rest => if g.1 = k then (g.1, g.2 ++ [b]) :: rest else g :: groupInsert k b rest

/-- The lodash `groupBy`: an object from keys to arrays, here the list of its
properties in creation order (the keys `moment` formats are never array
indices, so creation order is the enumeration order). -/
def groupBy (key : Entry → Str) (l : List Entry) : List (Str × List Entry) :=
  l.foldl (fun acc b => groupInsert (key b) b acc) []

/-- The entries `compact([mid, latest])` of one group: `get(ordered, index)` and
`last(ordered)` are `undefined` exactly when out of range, and `compact` drops
`undefined`. -/
def select (b : List Entry) : List Entry :=
  let ordered := orderBy b
  let index := (((ordered.length : Int) - 1).natAbs) / 2
  [ordered[index]?, ordered.getLast?].filterMap id

/-- The callback of the `reduce` in `cleanup`. -/
def planStep (result : Plan) (b : List Entry) : Plan :=
  { move := result.move ++ select b, remove := result.remove ++ b }

/-- The groups of `cleanup` that survive `omit([today])`. -/
def pastGroups (dayOf : Str → Str) (today : Str) (items : List Entry) :
    List (Str × List Entry) :=
  (groupBy (fun b => dayOf b.timestamp)
    (items.filter (fun b => decide (b.type ≠ BackupType.daily)))).filter
      (fun g => decide (g.1 ≠ today))

/-- The value `files` of `cleanup`, computed from `items = load()`. -/
def plan (dayOf : Str → Str) (today : Str) (items : List Entry) : Plan :=
  ((pastGroups dayOf today items).map Prod.snd).foldl planStep ⟨[], []⟩

/-! ## Filesystem -/

/-- Errors raised by the filesystem operations. -/
inductive Err where
  | enoent
  | enotdir
  | eisdir
  | einval
  | io
  deriving DecidableEq, Repr

deriving instance DecidableEq for Except

/-- A node of the tree: a regular file with its bytes, or a directory. -/
inductive Node where
  | file (data : List Nat)
  | dir
  deriving DecidableEq, Repr

/-- A resolved absolute path: its components from the root. -/
abbrev Key := List Str

/-- The disk: the nodes by resolved path, in listing order.  The root directory
is not listed; it always exists. -/
abbrev Disk := List (Key × Node)

/-- One step of path resolution. -/
def resolveStep (acc : Key) (seg : Str) : Key :=
  if seg = [] ∨ seg = ['.'] then acc
  else if seg = ['.', '.'] then acc.dropLast
  else acc ++ [seg]

/-- Resolution of an absolute path string: empty and `.` components are
skipped, `..` goes to the parent. -/
def resolve (p : Str) : Key := (split '/' p).foldl resolveStep []

/-- The node at a key, if any. -/
def lookup : Disk → Key → Option Node
  | [], _ => none
  | kn :: rest, k => if kn.1 = k then some kn.2 else lookup rest k

/-- The name of `k` when `k` is directly inside `dir`. -/
def childOf (dir k : Key) : Option Str :=
  if k.dropLast = dir then k.getLast? else none

/-- The call `fs.readdirSync(p)`: the names directly inside the directory `p`;
throws when `p` is not a directory. -/
def readdirSync (d : Disk) (p : Str) : Except Err (List Str) :=
  match lookup d (resolve p) with
  | some Node.dir => .ok (d.filterMap (fun kn => childOf (resolve p) kn.1))
  | some (Node.file _) => .error Err.enotdir
  | none => .error Err.enoent

/-- The call `fs.lstatSync(p).isDirectory()`; throws when `p` does not exist. -/
def lstatIsDirectory (d : Disk) (p : Str) : Except Err Bool :=
  match lookup d (resolve p) with
  | some n => .ok (decide (n = Node.dir))
  | none => .error Err.enoent

/-- External failures of single operations. -/
structure Faults where
  copy : Str → Str → Bool
  remove : Str → Bool

/-- No external failure. -/
def noFaults : Faults := { copy := fun _ _ => false, remove := fun _ => false }

/-- Put node `n` at key `k`, replacing what was there. -/
def write (d : Disk) (k : Key) (n : Node) : Disk :=
  d.filter (fun kn => decide (kn.1 ≠ k)) ++ [(k, n)]

/-- The proper non-root ancestors of a key, outermost first. -/
def ancestors (k : Key) : List Key := (k.dropLast.inits).tail

/-- Creation of the missing directories among `ks` (`mkdirsSync` of the parent
of a copy destination); throws when one of them is a regular file. -/
def mkdirs : Disk → List Key → Except Err Disk
  | d, [] => .ok d
  | d, k :: ks =>
    match lookup d k with
    | some (Node.file _) => .error Err.enotdir
    | some Node.dir => mkdirs d ks
    | none => mkdirs (d ++ [(k, Node.dir)]) ks

/-- The key `k` moved from under `s` to under `t`. -/
def rebase (s t k : Key) : Option Key :=
  if s.isPrefixOf k then some (t ++ k.drop s.length) else none

/-- Copy of the tree at `s` onto `t`, files of the same path being replaced. -/
def graft (d : Disk) (s t : Key) : Disk :=
  let sub := d.filterMap (fun kn => (rebase s t kn.1).map (fun k => (k, kn.2)))
  d.filter (fun kn => decide (kn.1 ∉ sub.map Prod.fst)) ++ sub

/-- The call `fs.copySync(src, dest)`, overwriting by default. -/
def copySync (F : Faults) (src dest : Str) (d : Disk) : Except Err Disk :=
  if F.copy src dest then .error Err.io
  else
    match lookup d (resolve src) with
    | none => .error Err.enoent
    | some (Node.file data) =>
      if resolve src = resolve dest then .error Err.einval
      else
        match lookup d (resolve dest) with
        | some Node.dir => .error Err.eisdir
        | _ =>
          match mkdirs d (ancestors (resolve dest)) with
          | .error e => .error e
          | .ok d1 => .ok (write d1 (resolve dest) (Node.file data))
    | some Node.dir =>
      if (resolve src).isPrefixOf (resolve dest) then .error Err.einval
      else
        match lookup d (resolve dest) with
        | some (Node.file _) => .error Err.enotdir
        | _ =>
          match mkdirs d (ancestors (resolve dest)) with
          | .error e => .error e
          | .ok d1 => .ok (graft d1 (resolve src) (resolve dest))

/-- The call `fs.removeSync(p)`: removes the node and everything below it;
nothing happens when `p` does not exist. -/
def removeSync (F : Faults) (p : Str) (d : Disk) : Except Err Disk :=
  if F.remove p then .error Err.io
  else .ok (d.filter (fun kn => !(resolve p).isPrefixOf kn.1))

/-- The loop `xs.forEach(f)` over a throwing callback: the disk reached, and the
exception that stopped the loop, if any. -/
def forEach (f : Entry → Disk → Except Err Disk) : List Entry → Disk → Disk × Option Err
  | [], d => (d, none)
  | b :: bs, d =>
    match f b d with
    | .ok d1 => forEach f bs d1
    | .error e => (d, some e)

/-! ## `load` -/

/-- The string `'/backup/daily'`. -/
def dailyDir : Str := "/backup/daily".toList

/-- The string `'/backup'`. -/
def backupDir : Str := "/backup".toList

/-- The filter of `load` on the listing of `/backup`: keeps the names that are
not directories; `lstatSync` may throw. -/
def filterNonDirs (d : Disk) : List Str → Except Err (List Str)
  | [] => .ok []
  | f :: fs =>
    match lstatIsDirectory d (backupPrefix ++ f) with
    | .error e => .error e
    | .ok isDir =>
      match filterNonDirs d fs with
      | .error e => .error e
      | .ok rest => .ok (if isDir then rest else f :: rest)

/-- The function `load()`. -/
def load (d : Disk) : Except Err (List Entry) :=
  match readdirSync d dailyDir with
  | .error e => .error e
  | .ok daily =>
    match readdirSync d backupDir with
    | .error e => .error e
    | .ok listed =>
      match filterNonDirs d listed with
      | .error e => .error e
      | .ok incremental =>
        .ok (orderBy (daily.map dailyEntry ++ incremental.map incrementalEntry))

/-! ## The service -/

/-- What a call leaves behind: the disk, the module variable `backups`, and the
exception it ended with, if any. -/
structure Outcome where
  disk : Disk
  backups : List Entry
  error : Option Err
  deriving DecidableEq, Repr

/-- The function `cleanup()`, at the day `today`. -/
def cleanup (dayOf : Str → Str) (today : Str) (F : Faults) (d : Disk)
    (backups : List Entry) : Outcome :=
  match load d with
  | .error e => ⟨d, backups, some e⟩
  | .ok items =>
    let files := plan dayOf today items
    match forEach (fun b => copySync F b.path (dailyPrefix ++ b.timestamp)) files.move d with
    | (d1, some e) => ⟨d1, backups, some e⟩
    | (d1, none) =>
      match forEach (fun b => removeSync F b.path) files.remove d1 with
      | (d2, some e) => ⟨d2, backups, some e⟩
      | (d2, none) =>
        match load d2 with
        | .error e => ⟨d2, backups, some e⟩
        | .ok reloaded => ⟨d2, reloaded, none⟩

/-- The function `getLatest(name)`: the outcome and the returned value
(`none` is `undefined`).  The chain filtered by `name` is computed and
dropped. -/
def getLatest (name : Str) (d : Disk) (backups : List Entry) : Outcome × Option Entry :=
  match load d with
  | .error e => (⟨d, backups, some e⟩, none)
  | .ok reloaded =>
    let _unused := (reloaded.filter (fun b => decide (b.name = name))).getLast?
    (⟨d, reloaded, none⟩, reloaded.getLast?)

/-! ## The backup interval -/

/-- Scanner state of `path.extname`. -/
structure ExtState where
  startDot : Int
  startPart : Int
  endPos : Int
  matchedSlash : Bool
  preDotState : Int
  stop : Bool

/-- One iteration of the backwards loop of `path.extname`, at index `ic.1`. -/
def extStep (st : ExtState) (ic : Nat × Char) : ExtState :=
  if st.stop then st
  else if ic.2 = '/' then
    if st.matchedSlash then st else { st with startPart := ic.1 + 1, stop := true }
  else
    let st1 : ExtState :=
      if st.endPos = -1 then { st with matchedSlash := false, endPos := ic.1 + 1 } else st
    if ic.2 = '.' then
      if st1.startDot = -1 then { st1 with startDot := ic.1 }
      else if st1.preDotState ≠ 1 then { st1 with preDotState := 1 } else st1
    else if st1.startDot ≠ -1 then { st1 with preDotState := -1 } else st1

/-- The function `path.extname` of Node (POSIX).  All characters it tests are
ASCII, so indexing by character instead of by code unit cuts the same
substring. -/
def extname (path : Str) : Str :=
  let st := path.enum.reverse.foldl extStep ⟨-1, 0, -1, true, 0, false⟩
  if st.startDot = -1 ∨ st.endPos = -1 ∨ st.preDotState = 0 ∨
      (st.preDotState = 1 ∧ st.startDot = st.endPos - 1 ∧ st.startDot = st.startPart + 1) then []
  else (path.take st.endPos.toNat).drop st.startDot.toNat

/-- The string `'/astroneer/Astro/Saved/SaveGames'`. -/
def savesDir : Str := "/astroneer/Astro/Saved/SaveGames".toList

/-- The string `'/astroneer/Astro/Saved/SaveGames/'`. -/
def savesPrefix : Str := "/astroneer/Astro/Saved/SaveGames/".toList

/-- The entry the backup interval appends for `file`. -/
def capturedEntry (timestamp file : Str) : Entry :=
  { name := nameOf file, path := backupPrefix ++ file, timestamp := timestamp,
    type := .incremental }

/-- The `reduce` of the backup interval over the filtered files, with
accumulator `result`: each step copies the file and appends its entry; a
throwing copy ends the loop with the exception. -/
def captureReduce (F : Faults) (timestamp : Str) :
    List Str → Disk → List Entry → Disk × Except Err (List Entry)
  | [], d, result => (d, .ok result)
  | file :: rest, d, result =>
    match copySync F (savesPrefix ++ file) (backupPrefix ++ file) d with
    | .error e => (d, .error e)
    | .ok d1 => captureReduce F timestamp rest d1 (result ++ [capturedEntry timestamp file])

/-- The callback of the backup interval of `init`, run at the time whose
`moment().format()` is `timestamp`.  `backups` is assigned only when the chain
returns. -/
def backupInterval (F : Faults) (timestamp : Str) (d : Disk) (backups : List Entry) :
    Outcome :=
  match readdirSync d savesDir with
  | .error e => ⟨d, backups, some e⟩
  | .ok files =>
    match captureReduce F timestamp
        (files.filter (fun file => decide (extname file = dotSavegame))) d backups with
    | (d1, .error e) => ⟨d1, backups, some e⟩
    | (d1, .ok result) => ⟨d1, result, none⟩

/-! ## Lifecycle -/

/-- The callback of a periodic schedule: the backup interval or `cleanup`. -/
inductive Job where
  | backup
  | cleanup
  deriving DecidableEq, Repr

/-- One active schedule of the runtime: its handle, its callback and its period
in milliseconds. -/
structure Timer where
  id : Nat
  job : Job
  period : Nat
  deriving DecidableEq, Repr

/-- The timers of the JavaScript runtime: the next fresh handle and the active
schedules. -/
structure Runtime where
  nextId : Nat
  active : List Timer
  deriving DecidableEq, Repr

/-- The variables of the closure `Backup()`; `none` is `undefined`. -/
structure Service where
  backups : List Entry
  backupIntervalID : Option Nat
  cleanupIntervalID : Option Nat
  deriving DecidableEq, Repr

/-- The variables as `Backup()` declares them: `backups = []` and both handles
`undefined`. -/
def created : Service := ⟨[], none, none⟩

/-- The call `setInterval(job, period)`: a fresh handle, registered as active. -/
def setInterval (job : Job) (period : Nat) (r : Runtime) : Nat × Runtime :=
  (r.nextId, ⟨r.nextId + 1, r.active ++ [⟨r.nextId, job, period⟩]⟩)

/-- The call `clearInterval(id)`: nothing happens for `undefined` or for a
handle that is not active. -/
def clearInterval (id : Option Nat) (r : Runtime) : Runtime :=
  match id with
  | none => r
  | some i => ⟨r.nextId, r.active.filter (fun t => decide (t.id ≠ i))⟩

/-- The call `fs.ensureDirSync(p)`: creates the directory and its missing
ancestors; throws when a regular file is in the way, or for an external reason
given by `E`. -/
def ensureDirSync (E : Str → Bool) (p : Str) (d : Disk) : Except Err Disk :=
  if E p then .error Err.io else mkdirs d (ancestors (resolve p) ++ [resolve p])

/-- The string `'/backup/restore'`. -/
def restoreDir : Str := "/backup/restore".toList

/-- What a lifecycle call leaves behind: the disk, the closure variables, the
timers, and the exception it ended with, if any. -/
structure Lifecycle where
  disk : Disk
  service : Service
  runtime : Runtime
  error : Option Err
  deriving DecidableEq, Repr

/-- The function `init()`. -/
def init (E : Str → Bool) (d : Disk) (s : Service) (r : Runtime) : Lifecycle :=
  match ensureDirSync E dailyDir d with
  | .error e => ⟨d, s, r, some e⟩
  | .ok d1 =>
    match ensureDirSync E restoreDir d1 with
    | .error e => ⟨d1, s, r, some e⟩
    | .ok d2 =>
      match load d2 with
      | .error e => ⟨d2, s, r, some e⟩
      | .ok items =>
        ⟨d2,
          ⟨items, some (setInterval Job.backup 600000 r).1,
            some (setInterval Job.cleanup (60 * 60 * 1000)
              (setInterval Job.backup 600000 r).2).1⟩,
          (setInterval Job.cleanup (60 * 60 * 1000) (setInterval Job.backup 600000 r).2).2,
          none⟩

/-- The function `stop()`: two `clearInterval` calls; the handles stay in the
variables. -/
def stop (d : Disk) (s : Service) (r : Runtime) : Lifecycle :=
  ⟨d, s, clearInterval s.cleanupIntervalID (clearInterval s.backupIntervalID r), none⟩

/-- The calls `init()` then `stop()`, from the variables as created. -/
def initStop (E : Str → Bool) (d : Disk) (r : Runtime) : Lifecycle :=
  stop (init E d created r).disk (init E d created r).service (init E d created r).runtime

/-- The calls `init()`, `stop()`, `stop()`, from the variables as created. -/
def initStopStop (E : Str → Bool) (d : Disk) (r : Runtime) : Lifecycle :=
  stop (initStop E d r).disk (initStop E d r).service (initStop E d r).runtime

/-- A runtime without any schedule. -/
def idleRuntime : Runtime := ⟨1, []⟩

/-- No external failure of `ensureDirSync`. -/
def noMkdirFault : Str → Bool := fun _ => false

/-! ## Well-formed disks -/

/-- A directory entry name: not empty, not `.` or `..`, without `/`. -/
def validName (s : Str) : Bool :=
  decide (s ≠ []) && decide (s ≠ ['.']) && decide (s ≠ ['.', '.']) && decide ('/' ∉ s)

/-- Every component of every path on the disk is a directory entry name. -/
def wellFormed (d : Disk) : Bool := d.all (fun kn => kn.1.all validName)

/-- The component `backup`. -/
def kBackup : Str := "backup".toList

/-- The component `daily`. -/
def kDaily : Str := "daily".toList

/-- The entry `b` is the incremental entry of a regular file of `/backup` on
the disk `d`. -/
def IsInc (d : Disk) (b : Entry) : Prop :=
  ∃ f data, b = incrementalEntry f ∧ validName f = true ∧
    lookup d [kBackup, f] = some (Node.file data)

/-- What the promotion copies keep of the disk `d0`: every path other than a
`/backup/daily/<t>` has its node, and every file `/backup/daily/<t>` is still a
file. -/
def CopyInv (d0 d : Disk) : Prop :=
  (∀ k, (∀ t, k ≠ [kBackup, kDaily, t]) → lookup d k = lookup d0 k) ∧
  (∀ t x, lookup d0 [kBackup, kDaily, t] = some (Node.file x) →
    ∃ y, lookup d [kBackup, kDaily, t] = some (Node.file y))

/-! ## Concrete disks -/

/-- A disk with the same save name in the daily directory and in the
incremental root. -/
def diskNamed : Disk :=
  [([kBackup], Node.dir), ([kBackup, kDaily], Node.dir),
   ([kBackup, kDaily, "SAVE_1$2021.03.14-10.20.30.savegame".toList], Node.file [1]),
   ([kBackup, "SAVE_1$2021.03.14-10.20.30.savegame".toList], Node.file [2])]

/-- A disk with four incremental files, one daily file without `$`, and the
`restore` directory. -/
def diskMixed : Disk :=
  [([kBackup], Node.dir), ([kBackup, kDaily], Node.dir),
   ([kBackup, "restore".toList], Node.dir),
   ([kBackup, "b$3".toList], Node.file [3]),
   ([kBackup, "a$1".toList], Node.file [1]),
   ([kBackup, "plain".toList], Node.file [0]),
   ([kBackup, "c$2".toList], Node.file [2]),
   ([kBackup, kDaily, "old".toList], Node.file [9])]

/-- What `load` returns on `diskMixed`. -/
def itemsMixed : List Entry :=
  [⟨"old".toList, "/backup/daily/old".toList, [], .daily⟩,
   ⟨"plain".toList, "/backup/plain".toList, [], .incremental⟩,
   ⟨"a".toList, "/backup/a$1".toList, "1".toList, .incremental⟩,
   ⟨"c".toList, "/backup/c$2".toList, "2".toList, .incremental⟩,
   ⟨"b".toList, "/backup/b$3".toList, "3".toList, .incremental⟩]

/-- A sample day key: the date part `YYYY-MM-DD` of a timestamp. -/
def dayKey (ts : Str) : Str := ts.take 10

/-- A sample current day. -/
def todayKey : Str := "2021-03-20".toList

/-- An incremental entry named `w` with the given file name and timestamp. -/
def inc (file ts : String) : Entry :=
  ⟨"w".toList, backupPrefix ++ file.toList, ts.toList, .incremental⟩

/-- Eight incremental entries on three past days: one on 14 March, two on 15
March, five on 16 March; none on the current day. -/
def itemsThreeDays : List Entry :=
  [inc "w$a" "2021-03-14T10:00", inc "w$b" "2021-03-15T10:00", inc "w$c" "2021-03-15T11:00",
   inc "w$d" "2021-03-16T10:00", inc "w$e" "2021-03-16T11:00", inc "w$f" "2021-03-16T12:00",
   inc "w$g" "2021-03-16T13:00", inc "w$h" "2021-03-16T14:00"]

/-- The component list of the save-game directory. -/
def kSaves : Key := ["astroneer".toList, "Astro".toList, "Saved".toList, "SaveGames".toList]

/-- A disk whose save-game directory holds `A.savegame`, a text file,
`B$7.savegame` and `C.savegame`, with an empty backup area. -/
def diskSaves : Disk :=
  [([kBackup], Node.dir), ([kBackup, kDaily], Node.dir),
   (["astroneer".toList], Node.dir), (["astroneer".toList, "Astro".toList], Node.dir),
   (["astroneer".toList, "Astro".toList, "Saved".toList], Node.dir),
   (kSaves, Node.dir),
   (kSaves ++ ["A.savegame".toList], Node.file [1]),
   (kSaves ++ ["notes.txt".toList], Node.file [2]),
   (kSaves ++ ["B$7.savegame".toList], Node.file [3]),
   (kSaves ++ ["C.savegame".toList], Node.file [4])]

/-- The copy of `C.savegame` fails; nothing else does. -/
def failC : Faults :=
  { copy := fun src _ => decide (src = savesPrefix ++ "C.savegame".toList),
    remove := fun _ => false }

/-- A catalog of one entry. -/
def priorCatalog : List Entry := [inc "w$a" "2021-03-14T10:00"]

/-- A capture time. -/
def captureTime : Str := "2021-03-20T12:00:00+00:00".toList

/-- Two incremental files on two past days. -/
def diskTwoDays : Disk :=
  [([kBackup], Node.dir), ([kBackup, kDaily], Node.dir),
   ([kBackup, "w$2021-03-14T10:00".toList], Node.file [1]),
   ([kBackup, "w$2021-03-15T10:00".toList], Node.file [2])]

/-- The copy of the file of 14 March fails; nothing else does. -/
def failFirstCopy : Faults :=
  { copy := fun src _ => decide (src = "/backup/w$2021-03-14T10:00".toList),
    remove := fun _ => false }

/-- A past-day incremental file whose timestamp is the name of an existing
daily file. -/
def diskOverwrite : Disk :=
  [([kBackup], Node.dir), ([kBackup, kDaily], Node.dir),
   ([kBackup, "w$2021-03-14T10:00".toList], Node.file [1]),
   ([kBackup, kDaily, "2021-03-14T10:00".toList], Node.file [9])]

/-- The daily entry `load` returns for the daily file of `diskOverwrite`. -/
def dailyOverwritten : Entry :=
  ⟨"2021-03-14T10:00".toList, "/backup/daily/2021-03-14T10:00".toList, [], .daily⟩

/-- Incremental files on two past days and on the current day, one daily file
and the `restore` directory. -/
def diskWeek : Disk :=
  [([kBackup], Node.dir), ([kBackup, kDaily], Node.dir),
   ([kBackup, "restore".toList], Node.dir),
   ([kBackup, "w$2021-03-14T10:00".toList], Node.file [1]),
   ([kBackup, "w$2021-03-15T10:00".toList], Node.file [2]),
   ([kBackup, "w$2021-03-15T11:00".toList], Node.file [3]),
   ([kBackup, "w$2021-03-20T09:00".toList], Node.file [4]),
   ([kBackup, kDaily, "old".toList], Node.file [9])]

/-- What `load` returns on `diskWeek`. -/
def itemsWeek : List Entry :=
  [⟨"old".toList, "/backup/daily/old".toList, [], .daily⟩,
   inc "w$2021-03-14T10:00" "2021-03-14T10:00", inc "w$2021-03-15T10:00" "2021-03-15T10:00",
   inc "w$2021-03-15T11:00" "2021-03-15T11:00", inc "w$2021-03-20T09:00" "2021-03-20T09:00"]

/-! ## The order on timestamps -/

theorem lexLt_irrefl (a : List Nat) : lexLt a a = false := by
  induction a with
  | nil => rfl
  | cons x xs ih => simp [lexLt, ih]

theorem lexLt_asymm : ∀ a b : List Nat, lexLt a b = true → lexLt b a = false
  | [], [], h => by simp [lexLt] at h
  | [], _ :: _, _ => by simp [lexLt]
  | _ :: _, [], h => by simp [lexLt] at h
  | x :: xs, y :: ys, h => by
    simp only [lexLt] at h ⊢
    by_cases hxy : x < y
    · have hyx : ¬ y < x := by omega
      simp [hxy, hyx]
    · by_cases hyx : y < x
      · simp [hxy, hyx] at h
      · simp only [hxy, hyx, if_false] at h ⊢
        exact lexLt_asymm xs ys h

theorem lexLt_cotrans : ∀ a b c : List Nat, lexLt a c = true →
    lexLt a b = true ∨ lexLt b c = true
  | [], [], c, h => Or.inr h
  | [], _ :: _, _, _ => Or.inl (by simp [lexLt])
  | _ :: _, _, [], h => by simp [lexLt] at h
  | _ :: _, [], _ :: _, _ => Or.inr (by simp [lexLt])
  | x :: xs, y :: ys, z :: zs, h => by
    simp only [lexLt] at h ⊢
    by_cases hxy : x < y
    · simp [hxy]
    · by_cases hyz : y < z
      · simp [hyz]
      · by_cases hxz : x < z
        · omega
        · by_cases hzx : z < x
          · simp [hxz, hzx] at h
          · have e1 : x = z := by omega
            have e2 : y = x := by omega
            subst e1 e2
            simp only [lt_irrefl, if_false] at h ⊢
            exact lexLt_cotrans xs ys zs h

theorem strLe_total (a b : Str) : strLe a b = true ∨ strLe b a = true := by
  unfold strLe strLt
  cases h : lexLt (units a) (units b)
  · right; rfl
  · left; simp [lexLt_asymm _ _ h]

theorem strLe_trans {a b c : Str} (h1 : strLe a b = true) (h2 : strLe b c = true) :
    strLe a c = true := by
  unfold strLe strLt at *
  cases h : lexLt (units c) (units a)
  · rfl
  · rcases lexLt_cotrans _ (units b) _ h with h3 | h3
    · simp [h3] at h2
    · simp [h3] at h1

theorem strLe_refl (a : Str) : strLe a a = true := by
  simp [strLe, strLt, lexLt_irrefl]

theorem units_eq_nil {a : Str} (h : units a = []) : a = [] := by
  cases a with
  | nil => rfl
  | cons c cs =>
    simp only [units, utf16] at h
    split at h <;> simp at h

theorem strLe_nil_left (a : Str) : strLe [] a = true := by
  cases h : units a <;> simp [strLe, strLt, units, lexLt, h]

theorem strLe_nil_right {a : Str} (h : strLe a [] = true) : a = [] := by
  apply units_eq_nil
  cases hu : units a with
  | nil => rfl
  | cons x xs => simp [strLe, strLt, units, lexLt, hu] at h

theorem tsLe_trans {a b c : Entry} (h1 : tsLe a b) (h2 : tsLe b c) : tsLe a c :=
  strLe_trans h1 h2

/-! ## `orderBy` sorts and permutes -/

theorem orderedInsert_perm (a : Entry) (l : List Entry) :
    (orderedInsert a l).Perm (a :: l) := by
  induction l with
  | nil => exact List.Perm.refl _
  | cons b l ih =>
    unfold orderedInsert
    split
    · exact List.Perm.refl _
    · exact (List.Perm.cons b ih).trans (List.Perm.swap a b l)

theorem orderBy_perm (l : List Entry) : (orderBy l).Perm l := by
  induction l with
  | nil => exact List.Perm.refl _
  | cons a l ih => exact (orderedInsert_perm a (orderBy l)).trans (List.Perm.cons a ih)

theorem orderedInsert_pairwise (a : Entry) (l : List Entry) (h : l.Pairwise tsLe) :
    (orderedInsert a l).Pairwise tsLe := by
  induction l with
  | nil => simp [orderedInsert]
  | cons b l ih =>
    unfold orderedInsert
    rw [List.pairwise_cons] at h
    split
    · rename_i hab
      refine List.pairwise_cons.2 ⟨?_, List.pairwise_cons.2 h⟩
      intro x hx
      rcases List.mem_cons.1 hx with rfl | hx
      · exact hab
      · exact tsLe_trans hab (h.1 x hx)
    · rename_i hab
      have hba : tsLe b a := by
        rcases strLe_total a.timestamp b.timestamp with h1 | h1
        · exact absurd h1 hab
        · exact h1
      refine List.pairwise_cons.2 ⟨?_, ih h.2⟩
      intro x hx
      rcases List.mem_cons.1 ((orderedInsert_perm a l).subset hx) with rfl | hx
      · exact hba
      · exact h.1 x hx

theorem orderBy_pairwise (l : List Entry) : (orderBy l).Pairwise tsLe := by
  induction l with
  | nil => exact List.Pairwise.nil
  | cons a l ih => exact orderedInsert_pairwise a _ ih

theorem orderBy_length (l : List Entry) : (orderBy l).length = l.length :=
  (orderBy_perm l).length_eq

theorem orderBy_eq_nil {l : List Entry} : orderBy l = [] ↔ l = [] := by
  constructor
  · intro h
    have := orderBy_length l
    rw [h] at this
    exact List.length_eq_zero.1 this.symm
  · rintro rfl; rfl

/-! ## `load` -/

theorem load_ok {d : Disk} {items : List Entry} (h : load d = .ok items) :
    ∃ daily listed incremental, readdirSync d dailyDir = .ok daily ∧
      readdirSync d backupDir = .ok listed ∧ filterNonDirs d listed = .ok incremental ∧
      items = orderBy (daily.map dailyEntry ++ incremental.map incrementalEntry) := by
  unfold load at h
  split at h
  · cases h
  · rename_i daily hd
    split at h
    · cases h
    · rename_i listed hl
      split at h
      · cases h
      · rename_i inc hi
        injection h with h
        exact ⟨daily, listed, inc, hd, hl, hi, h.symm⟩

theorem pairwise_getLast {l : List Entry} (hp : l.Pairwise tsLe) (hne : l ≠ []) :
    ∀ x ∈ l, tsLe x (l.getLast hne) := by
  intro x hx
  have hl : l.dropLast ++ [l.getLast hne] = l := List.dropLast_append_getLast hne
  rw [← hl] at hp hx
  rcases List.mem_append.1 hx with h1 | h1
  · exact (List.pairwise_append.1 hp).2.2 x h1 _ (List.mem_singleton.2 rfl)
  · rw [List.mem_singleton.1 h1]; exact strLe_refl _

/-- C3: at the file `SAVE_1$2021.03.14-10.20.30.savegame`, present in the daily
directory and in the incremental root, `load` returns the name `SAVE_1` and the
right type for both, but the timestamp `2021.03.14-10.20.30undefined`: the
suffix `.savegame` is replaced by `undefined`, not stripped. -/
theorem load_timestamp_keeps_undefined :
    load diskNamed = .ok
      [⟨"SAVE_1".toList, "/backup/daily/SAVE_1$2021.03.14-10.20.30.savegame".toList,
          "2021.03.14-10.20.30undefined".toList, .daily⟩,
       ⟨"SAVE_1".toList, "/backup/SAVE_1$2021.03.14-10.20.30.savegame".toList,
          "2021.03.14-10.20.30undefined".toList, .incremental⟩] := by
  decide

/-- C4: whenever `load` returns, its result is a permutation of the daily
entries followed by the incremental entries, every adjacent pair is in
ascending timestamp order, and every entry in front of an entry with empty
timestamp has an empty timestamp too. -/
theorem load_sorted_perm (d : Disk) (items : List Entry) (h : load d = .ok items) :
    ∃ daily listed incremental, readdirSync d dailyDir = .ok daily ∧
      readdirSync d backupDir = .ok listed ∧ filterNonDirs d listed = .ok incremental ∧
      items.Perm (daily.map dailyEntry ++ incremental.map incrementalEntry) ∧
      (∀ i (hi : i + 1 < items.length),
        strLe (items.get ⟨i, by omega⟩).timestamp (items.get ⟨i + 1, hi⟩).timestamp = true) ∧
      (∀ i j (hij : i < j) (hj : j < items.length),
        (items.get ⟨j, hj⟩).timestamp = [] → (items.get ⟨i, by omega⟩).timestamp = []) := by
  obtain ⟨daily, listed, inc, h1, h2, h3, rfl⟩ := load_ok h
  refine ⟨daily, listed, inc, h1, h2, h3, orderBy_perm _, ?_, ?_⟩
  · intro i hi
    exact List.pairwise_iff_get.1 (orderBy_pairwise _) ⟨i, by omega⟩ ⟨i + 1, hi⟩
      (by simp)
  · intro i j hij hj he
    have := List.pairwise_iff_get.1 (orderBy_pairwise _) ⟨i, by omega⟩ ⟨j, hj⟩ (by simpa using hij)
    unfold tsLe at this
    rw [he] at this
    exact strLe_nil_right this

theorem load_sorted_perm_witness :
    load diskMixed = .ok itemsMixed ∧
    ∃ daily listed incremental, readdirSync diskMixed dailyDir = .ok daily ∧
      readdirSync diskMixed backupDir = .ok listed ∧
      filterNonDirs diskMixed listed = .ok incremental ∧
      itemsMixed.Perm (daily.map dailyEntry ++ incremental.map incrementalEntry) ∧
      (∀ i (hi : i + 1 < itemsMixed.length),
        strLe (itemsMixed.get ⟨i, by omega⟩).timestamp
          (itemsMixed.get ⟨i + 1, hi⟩).timestamp = true) ∧
      (∀ i j (hij : i < j) (hj : j < itemsMixed.length),
        (itemsMixed.get ⟨j, hj⟩).timestamp = [] →
          (itemsMixed.get ⟨i, by omega⟩).timestamp = []) :=
  ⟨by decide, load_sorted_perm diskMixed itemsMixed (by decide)⟩

/-- C6: when the reload succeeds with catalog `items`, `getLatest(name)` stores
that catalog and returns `undefined` if it is empty, and otherwise an entry of
it whose timestamp is at least that of every entry; the result is the same for
every `name`. -/
theorem getLatest_returns_last (name : Str) (d : Disk) (backups items : List Entry)
    (h : load d = .ok items) :
    (getLatest name d backups).1 = ⟨d, items, none⟩ ∧
    (items = [] → (getLatest name d backups).2 = none) ∧
    (items ≠ [] → ∃ e, (getLatest name d backups).2 = some e ∧ e ∈ items ∧
      ∀ x ∈ items, strLe x.timestamp e.timestamp = true) ∧
    (∀ other : Str, (getLatest other d backups).2 = (getLatest name d backups).2) := by
  have hv : ∀ n : Str, getLatest n d backups = (⟨d, items, none⟩, items.getLast?) := by
    intro n; simp [getLatest, h]
  refine ⟨by rw [hv], ?_, ?_, ?_⟩
  · rintro rfl; rw [hv]; rfl
  · intro hne
    refine ⟨items.getLast hne, ?_, List.getLast_mem hne, ?_⟩
    · rw [hv]; exact List.getLast?_eq_getLast _ hne
    · obtain ⟨_, _, _, _, _, _, rfl⟩ := load_ok h
      exact pairwise_getLast (orderBy_pairwise _) hne
  · intro other; rw [hv, hv]

theorem getLatest_returns_last_witness :
    load diskMixed = .ok itemsMixed ∧
    (getLatest "a".toList diskMixed []).2 =
      some ⟨"b".toList, "/backup/b$3".toList, "3".toList, .incremental⟩ ∧
    (getLatest "a".toList diskMixed []).1 = ⟨diskMixed, itemsMixed, none⟩ :=
  ⟨by decide, by decide,
    (getLatest_returns_last "a".toList diskMixed [] itemsMixed (by decide)).1⟩

/-! ## The plan of `cleanup` -/

theorem planStep_foldl (gs : List (List Entry)) (p : Plan) :
    gs.foldl planStep p =
      ⟨p.move ++ (gs.map select).flatten, p.remove ++ gs.flatten⟩ := by
  induction gs generalizing p with
  | nil => simp
  | cons g gs ih => simp [List.foldl_cons, ih, planStep, List.append_assoc]

theorem plan_eq (dayOf : Str → Str) (today : Str) (items : List Entry) :
    plan dayOf today items =
      ⟨((pastGroups dayOf today items).map (fun g => select g.2)).flatten,
        ((pastGroups dayOf today items).map Prod.snd).flatten⟩ := by
  unfold plan
  rw [planStep_foldl]
  simp [List.map_map, Function.comp_def]

theorem groupInsert_nonempty (k : Str) (b : Entry) (acc : List (Str × List Entry))
    (h : ∀ g ∈ acc, g.2 ≠ []) : ∀ g ∈ groupInsert k b acc, g.2 ≠ [] := by
  induction acc with
  | nil => simp [groupInsert]
  | cons a acc ih =>
    intro g hg
    unfold groupInsert at hg
    split at hg
    · rcases List.mem_cons.1 hg with rfl | hg
      · simp
      · exact h g (List.mem_cons_of_mem _ hg)
    · rcases List.mem_cons.1 hg with rfl | hg
      · exact h _ (List.mem_cons_self _ _)
      · exact ih (fun g hg => h g (List.mem_cons_of_mem _ hg)) g hg

theorem foldl_groupInsert_nonempty (key : Entry → Str) (l : List Entry)
    (acc : List (Str × List Entry)) (h : ∀ g ∈ acc, g.2 ≠ []) :
    ∀ g ∈ l.foldl (fun acc b => groupInsert (key b) b acc) acc, g.2 ≠ [] := by
  induction l generalizing acc with
  | nil => simpa using h
  | cons b l ih => exact ih _ (groupInsert_nonempty _ _ _ h)

theorem groupBy_nonempty (key : Entry → Str) (l : List Entry) :
    ∀ g ∈ groupBy key l, g.2 ≠ [] :=
  foldl_groupInsert_nonempty key l [] (by simp)

theorem pastGroups_nonempty (dayOf : Str → Str) (today : Str) (items : List Entry) :
    ∀ g ∈ pastGroups dayOf today items, g.2 ≠ [] := fun g hg =>
  groupBy_nonempty _ _ g (List.mem_filter.1 hg).1

theorem select_of_ne_nil {b : List Entry} (hb : b ≠ []) :
    ∃ mid latest, (orderBy b)[(b.length - 1) / 2]? = some mid ∧
      (orderBy b)[b.length - 1]? = some latest ∧ select b = [mid, latest] := by
  have hlen : (orderBy b).length = b.length := orderBy_length b
  have hpos : 0 < b.length := List.length_pos.2 hb
  have hne : orderBy b ≠ [] := fun h => hb (orderBy_eq_nil.1 h)
  have h1 : (b.length - 1) / 2 < (orderBy b).length := by omega
  have hidx : (((orderBy b).length : Int) - 1).natAbs / 2 = (b.length - 1) / 2 := by
    rw [hlen]; omega
  refine ⟨(orderBy b).get ⟨(b.length - 1) / 2, h1⟩, (orderBy b).getLast hne, ?_, ?_, ?_⟩
  · exact List.getElem?_eq_getElem h1
  · rw [← hlen, ← List.getLast?_eq_getElem?, List.getLast?_eq_getLast _ hne]
  · unfold select
    simp only [hidx]
    rw [List.getElem?_eq_getElem h1, List.getLast?_eq_getLast _ hne]
    rfl

theorem select_length {b : List Entry} (hb : b ≠ []) : (select b).length = 2 := by
  obtain ⟨m, l, _, _, h⟩ := select_of_ne_nil hb
  rw [h]; rfl

/-- C1 (as stated, refuted): with groups of 1, 2 and 5 entries on three past
days and nothing on the current day, the promote collection has 6 elements, not
5: it starts with the only entry of the first day, twice. -/
theorem cleanup_singleton_promoted_twice :
    (pastGroups dayKey todayKey itemsThreeDays).map (fun g => g.2.length) = [1, 2, 5] ∧
    itemsThreeDays.filter (fun b => decide (dayKey b.timestamp = todayKey)) = [] ∧
    ¬ ((plan dayKey todayKey itemsThreeDays).move.length = 5) ∧
    (plan dayKey todayKey itemsThreeDays).move.take 2 =
      [inc "w$a" "2021-03-14T10:00", inc "w$a" "2021-03-14T10:00"] := by
  decide

/-- C1 (amended): every past-day group has `n >= 1` entries and contributes to
the promote collection exactly two elements, the entry at index
`floor((n-1)/2)` of its ascending ordering followed by the last one (so the
only entry of a one-entry group twice), and all its entries to the purge
collection; hence with three past-day groups of sizes 1, 2 and 5 the promote
collection has 6 elements and the purge collection 8. -/
theorem cleanup_promotes_mid_and_latest (dayOf : Str → Str) (today : Str)
    (items : List Entry) :
    (∀ g ∈ pastGroups dayOf today items,
      1 ≤ g.2.length ∧ (orderBy g.2).Pairwise tsLe ∧ (orderBy g.2).Perm g.2 ∧
      ∃ mid latest, (orderBy g.2)[(g.2.length - 1) / 2]? = some mid ∧
        (orderBy g.2)[g.2.length - 1]? = some latest ∧ select g.2 = [mid, latest]) ∧
    (plan dayOf today items).move =
      ((pastGroups dayOf today items).map (fun g => select g.2)).flatten ∧
    (plan dayOf today items).remove =
      ((pastGroups dayOf today items).map Prod.snd).flatten ∧
    (((pastGroups dayOf today items).map (fun g => g.2.length)).Perm [1, 2, 5] →
      (plan dayOf today items).move.length = 6 ∧
      (plan dayOf today items).remove.length = 8) := by
  refine ⟨?_, by rw [plan_eq], by rw [plan_eq], ?_⟩
  · intro g hg
    have hne := pastGroups_nonempty dayOf today items g hg
    exact ⟨List.length_pos.2 hne, orderBy_pairwise _, orderBy_perm _, select_of_ne_nil hne⟩
  · intro hp
    rw [plan_eq]
    constructor
    · have h2 : (pastGroups dayOf today items).map (fun g => (select g.2).length) =
          (pastGroups dayOf today items).map (fun _ => 2) :=
        List.map_congr_left
          (fun g hg => select_length (pastGroups_nonempty dayOf today items g hg))
      have h3 : (pastGroups dayOf today items).length = 3 := by
        have := hp.length_eq
        simpa using this
      simp only [List.length_flatten, List.map_map, Function.comp_def]
      rw [h2]
      simp [h3]
    · simp only [List.length_flatten, List.map_map, Function.comp_def]
      have := hp.sum_eq
      simpa using this

theorem cleanup_promotes_mid_and_latest_witness :
    ((pastGroups dayKey todayKey itemsThreeDays).map (fun g => g.2.length)).Perm [1, 2, 5] ∧
    (plan dayKey todayKey itemsThreeDays).move.length = 6 ∧
    (plan dayKey todayKey itemsThreeDays).remove.length = 8 :=
  have hs : (pastGroups dayKey todayKey itemsThreeDays).map (fun g => g.2.length) = [1, 2, 5] :=
    by decide
  ⟨hs ▸ List.Perm.refl _,
    (cleanup_promotes_mid_and_latest dayKey todayKey itemsThreeDays).2.2.2
      (hs ▸ List.Perm.refl _)⟩

/-! ## The backup interval -/

theorem split_ne_nil (c : Char) (s : Str) : split c s ≠ [] := by
  cases s with
  | nil => simp [split]
  | cons x xs =>
    unfold split
    split
    · simp
    · split <;> simp

theorem nameOf_eq_takeWhile (f : Str) : nameOf f = f.takeWhile (fun c => decide (c ≠ '$')) := by
  unfold nameOf
  induction f with
  | nil => rfl
  | cons x xs ih =>
    unfold split
    by_cases hx : x = '$'
    · simp [hx]
    · simp only [hx, if_false]
      cases hs : split '$' xs with
      | nil => exact absurd hs (split_ne_nil _ _)
      | cons p ps =>
        rw [hs] at ih
        simp only [List.headD_cons] at ih ⊢
        subst ih
        simp [List.takeWhile, hx]

theorem captureReduce_ok (F : Faults) (ts : Str) :
    ∀ (files : List Str) (d : Disk) (result : List Entry) (d1 : Disk) (r : List Entry),
      captureReduce F ts files d result = (d1, .ok r) →
      r = result ++ files.map (capturedEntry ts)
  | [], d, result, d1, r, h => by
    simp only [captureReduce, Prod.mk.injEq, Except.ok.injEq] at h
    simp [h.2]
  | file :: rest, d, result, d1, r, h => by
    unfold captureReduce at h
    split at h
    · simp at h
    · rename_i d2 _
      have := captureReduce_ok F ts rest d2 _ d1 r h
      simp [this]

theorem captureReduce_error (F : Faults) (ts : Str) :
    ∀ (files : List Str) (d : Disk) (result : List Entry) (d1 : Disk) (e : Err),
      captureReduce F ts files d result = (d1, .error e) →
      ∃ done file rest r, files = done ++ file :: rest ∧
        captureReduce F ts done d result = (d1, .ok r) ∧
        copySync F (savesPrefix ++ file) (backupPrefix ++ file) d1 = .error e
  | [], d, result, d1, e, h => by simp [captureReduce] at h
  | file :: rest, d, result, d1, e, h => by
    unfold captureReduce at h
    split at h
    · rename_i e1 hc
      simp only [Prod.mk.injEq, Except.error.injEq] at h
      obtain ⟨rfl, rfl⟩ := h
      exact ⟨[], file, rest, result, rfl, rfl, hc⟩
    · rename_i d2 hc
      obtain ⟨done, f, rest1, r, h1, h2, h3⟩ := captureReduce_error F ts rest d2 _ d1 e h
      refine ⟨file :: done, f, rest1, r, by simp [h1], ?_, h3⟩
      simp [captureReduce, hc, h2]

/-- C5 (as stated, refuted): with `A.savegame` and `B$7.savegame` copied and the
copy of `C.savegame` failing, the invocation ends with the exception and the
catalog is the prior one: it gains no entry, not two, although both copies are
on disk. -/
theorem backupInterval_failed_copy_gains_nothing :
    (backupInterval failC captureTime diskSaves priorCatalog).backups = priorCatalog ∧
    (backupInterval failC captureTime diskSaves priorCatalog).error = some Err.io ∧
    lookup (backupInterval failC captureTime diskSaves priorCatalog).disk
      [kBackup, "A.savegame".toList] = some (Node.file [1]) ∧
    lookup (backupInterval failC captureTime diskSaves priorCatalog).disk
      [kBackup, "B$7.savegame".toList] = some (Node.file [3]) ∧
    lookup (backupInterval failC captureTime diskSaves priorCatalog).disk
      [kBackup, "C.savegame".toList] = none := by
  decide

/-- C5 (amended): when an invocation of the backup interval ends with an
exception after the listing succeeded, one copy failed; the files listed before
it have been copied, no file after it is processed, and the catalog is exactly
the prior catalog. -/
theorem backupInterval_stops_at_failed_copy (F : Faults) (ts : Str) (d : Disk)
    (backups : List Entry) (files : List Str) (e : Err)
    (hfiles : readdirSync d savesDir = .ok files)
    (h : (backupInterval F ts d backups).error = some e) :
    (backupInterval F ts d backups).backups = backups ∧
    ∃ done file rest r,
      files.filter (fun file => decide (extname file = dotSavegame)) = done ++ file :: rest ∧
      captureReduce F ts done d backups = ((backupInterval F ts d backups).disk, .ok r) ∧
      copySync F (savesPrefix ++ file) (backupPrefix ++ file)
        (backupInterval F ts d backups).disk = .error e := by
  unfold backupInterval at h ⊢
  simp only [hfiles] at h ⊢
  split at h
  · rename_i d1 e1 hc
    simp only [Option.some.injEq] at h
    subst h
    simp only [hc]
    exact ⟨trivial, captureReduce_error F ts _ d backups d1 e1 hc⟩
  · simp at h

theorem backupInterval_stops_at_failed_copy_witness :
    (backupInterval failC captureTime diskSaves priorCatalog).backups = priorCatalog :=
  (backupInterval_stops_at_failed_copy failC captureTime diskSaves priorCatalog
    ["A.savegame".toList, "notes.txt".toList, "B$7.savegame".toList, "C.savegame".toList]
    Err.io (by decide) (by decide)).1

/-- C9: when an invocation of the backup interval ends without exception, the
listing succeeded and the catalog is the prior catalog followed by one entry
per listed file of extension `.savegame`, in listing order; each new entry has
the part of the file name before the first `$` as name, the destination
`/backup/<file>` as path, the capture timestamp, and type incremental. -/
theorem backupInterval_appends (F : Faults) (ts : Str) (d : Disk) (backups : List Entry)
    (h : (backupInterval F ts d backups).error = none) :
    ∃ files, readdirSync d savesDir = .ok files ∧
      (backupInterval F ts d backups).backups =
        backups ++ (files.filter (fun file => decide (extname file = dotSavegame))).map
          (fun file => (⟨file.takeWhile (fun c => decide (c ≠ '$')), backupPrefix ++ file, ts,
            BackupType.incremental⟩ : Entry)) := by
  unfold backupInterval at h ⊢
  split at h
  · simp at h
  · rename_i files hfiles
    refine ⟨files, hfiles, ?_⟩
    split at h
    · simp at h
    · rename_i d1 r hc
      simp only [hc]
      rw [captureReduce_ok F ts _ d backups d1 r hc]
      congr 1
      apply List.map_congr_left
      intro file _
      simp [capturedEntry, nameOf_eq_takeWhile]

theorem backupInterval_appends_witness :
    (backupInterval noFaults captureTime diskSaves priorCatalog).error = none ∧
    (backupInterval noFaults captureTime diskSaves priorCatalog).backups =
      priorCatalog ++
        [⟨"A.savegame".toList, "/backup/A.savegame".toList, captureTime, .incremental⟩,
         ⟨"B".toList, "/backup/B$7.savegame".toList, captureTime, .incremental⟩,
         ⟨"C.savegame".toList, "/backup/C.savegame".toList, captureTime, .incremental⟩] ∧
    ∃ files, readdirSync diskSaves savesDir = .ok files ∧
      (backupInterval noFaults captureTime diskSaves priorCatalog).backups =
        priorCatalog ++ (files.filter (fun file => decide (extname file = dotSavegame))).map
          (fun file => (⟨file.takeWhile (fun c => decide (c ≠ '$')), backupPrefix ++ file,
            captureTime, BackupType.incremental⟩ : Entry)) :=
  ⟨by decide, by decide,
    backupInterval_appends noFaults captureTime diskSaves priorCatalog (by decide)⟩

/-! ## Path resolution -/

theorem split_of_not_mem (c : Char) : ∀ s : Str, c ∉ s → split c s = [s]
  | [], _ => rfl
  | x :: xs, h => by
    have hx : x ≠ c := fun e => h (e ▸ List.mem_cons_self _ _)
    have hxs : c ∉ xs := fun m => h (List.mem_cons_of_mem _ m)
    simp [split, hx, split_of_not_mem c xs hxs]

theorem split_append_sep (c : Char) : ∀ (a b : Str), c ∉ a →
    split c (a ++ c :: b) = a :: split c b
  | [], b, _ => by simp [split]
  | x :: xs, b, h => by
    have hx : x ≠ c := fun e => h (e ▸ List.mem_cons_self _ _)
    have hxs : c ∉ xs := fun m => h (List.mem_cons_of_mem _ m)
    simp [split, hx, split_append_sep c xs b hxs]

theorem split_backupPrefix (f : Str) (h : '/' ∉ f) :
    split '/' (backupPrefix ++ f) = [[], kBackup, f] := by
  have e : backupPrefix ++ f = [] ++ '/' :: (kBackup ++ '/' :: f) := by
    simp [backupPrefix, kBackup]
  rw [e, split_append_sep _ _ _ (by simp), split_append_sep _ _ _ (by decide),
    split_of_not_mem _ _ h]

theorem split_dailyPrefix (f : Str) (h : '/' ∉ f) :
    split '/' (dailyPrefix ++ f) = [[], kBackup, kDaily, f] := by
  have e : dailyPrefix ++ f = [] ++ '/' :: (kBackup ++ '/' :: (kDaily ++ '/' :: f)) := by
    simp [dailyPrefix, kBackup, kDaily]
  rw [e, split_append_sep _ _ _ (by simp), split_append_sep _ _ _ (by decide),
    split_append_sep _ _ _ (by decide), split_of_not_mem _ _ h]

theorem validName_iff {s : Str} :
    validName s = true ↔ s ≠ [] ∧ s ≠ ['.'] ∧ s ≠ ['.', '.'] ∧ '/' ∉ s := by
  simp [validName, and_assoc]

theorem resolve_backup {f : Str} (h : validName f = true) :
    resolve (backupPrefix ++ f) = [kBackup, f] := by
  obtain ⟨h1, h2, h3, h4⟩ := validName_iff.1 h
  unfold resolve
  rw [split_backupPrefix f h4]
  simp [resolveStep, h1, h2, h3, kBackup]

theorem resolve_daily_valid {t : Str} (h : validName t = true) :
    resolve (dailyPrefix ++ t) = [kBackup, kDaily, t] := by
  obtain ⟨h1, h2, h3, h4⟩ := validName_iff.1 h
  unfold resolve
  rw [split_dailyPrefix t h4]
  simp [resolveStep, h1, h2, h3, kBackup, kDaily]

theorem resolve_daily_invalid {t : Str} (hs : '/' ∉ t) (h : validName t = false) :
    resolve (dailyPrefix ++ t) = [kBackup, kDaily] ∨ resolve (dailyPrefix ++ t) = [kBackup] := by
  have hc : t = [] ∨ t = ['.'] ∨ t = ['.', '.'] := by
    by_contra hn
    push_neg at hn
    have := validName_iff.2 ⟨hn.1, hn.2.1, hn.2.2, hs⟩
    rw [h] at this
    cases this
  rcases hc with rfl | rfl | rfl
  · left; decide
  · left; decide
  · right; decide

theorem resolve_dailyDir : resolve dailyDir = [kBackup, kDaily] := by decide

theorem resolve_backupDir : resolve backupDir = [kBackup] := by decide

/-! ## Characters of a timestamp -/

theorem mem_of_mem_split (c : Char) : ∀ (s seg : Str), seg ∈ split c s → ∀ x ∈ seg, x ∈ s
  | [], seg, h, x, hx => by
    simp [split] at h
    subst h
    cases hx
  | y :: ys, seg, h, x, hx => by
    unfold split at h
    split at h
    · rcases List.mem_cons.1 h with rfl | h
      · cases hx
      · exact List.mem_cons_of_mem _ (mem_of_mem_split c ys seg h x hx)
    · split at h
      · rename_i hs
        exact absurd hs (split_ne_nil _ _)
      · rename_i p ps hs
        rcases List.mem_cons.1 h with rfl | h
        · rcases List.mem_cons.1 hx with rfl | hx
          · exact List.mem_cons_self _ _
          · exact List.mem_cons_of_mem _
              (mem_of_mem_split c ys p (hs ▸ List.mem_cons_self _ _) x hx)
        · exact List.mem_cons_of_mem _
            (mem_of_mem_split c ys seg (hs ▸ List.mem_cons_of_mem _ h) x hx)

theorem mem_replaceFirst (pat rep : Str) : ∀ (s : Str) (x : Char),
    x ∈ replaceFirst pat rep s → x ∈ s ∨ x ∈ rep
  | [], x, h => by
    unfold replaceFirst at h
    split at h
    · exact Or.inr h
    · cases h
  | c :: cs, x, h => by
    unfold replaceFirst at h
    split at h
    · rcases List.mem_append.1 h with h | h
      · exact Or.inr h
      · exact Or.inl (List.mem_of_mem_drop h)
    · rcases List.mem_cons.1 h with rfl | h
      · exact Or.inl (List.mem_cons_self _ _)
      · rcases mem_replaceFirst pat rep cs x h with h | h
        · exact Or.inl (List.mem_cons_of_mem _ h)
        · exact Or.inr h

theorem slash_not_mem_timestampOf {f : Str} (h : '/' ∉ f) : '/' ∉ timestampOf f := by
  intro hm
  unfold timestampOf at hm
  rcases mem_replaceFirst _ _ _ _ hm with hm | hm
  · have hseg : (split '$' f).getD 1 [] ∈ split '$' f ∨ (split '$' f).getD 1 [] = [] := by
      rw [List.getD_eq_getElem?_getD]
      cases hg : (split '$' f)[1]? with
      | none => right; rfl
      | some v => left; exact List.getElem?_mem hg
    rcases hseg with hseg | hseg
    · exact h (mem_of_mem_split _ _ _ hseg _ hm)
    · rw [hseg] at hm; cases hm
  · revert hm; decide

/-! ## The disk as a map -/

theorem lookup_append (a b : Disk) (k : Key) :
    lookup (a ++ b) k = (lookup a k).orElse (fun _ => lookup b k) := by
  induction a with
  | nil => rfl
  | cons kn a ih =>
    simp only [List.cons_append, lookup]
    split
    · rfl
    · exact ih

theorem lookup_filter_key (q : Key → Bool) (d : Disk) (k : Key) :
    lookup (d.filter (fun kn => q kn.1)) k = if q k = true then lookup d k else none := by
  induction d with
  | nil => simp [lookup]
  | cons kn d ih =>
    rw [List.filter_cons]
    by_cases hq : q kn.1 = true
    · simp only [hq, if_true, lookup]
      by_cases hk : kn.1 = k
      · subst hk; simp [hq]
      · simp only [hk, if_false]; exact ih
    · simp only [hq, Bool.false_eq_true, if_false, lookup]
      rw [ih]
      by_cases hk : kn.1 = k
      · subst hk; simp [hq]
      · simp [hk]

theorem lookup_write (d : Disk) (k : Key) (n : Node) (k1 : Key) :
    lookup (write d k n) k1 = if k1 = k then some n else lookup d k1 := by
  unfold write
  rw [lookup_append, lookup_filter_key (fun x => decide (x ≠ k))]
  by_cases h : k1 = k
  · subst h; simp [lookup]
  · have h2 : ¬ k = k1 := fun e => h e.symm
    simp only [h, if_false, ne_eq, not_false_eq_true, decide_True, if_true]
    cases lookup d k1 <;> simp [lookup, h2]

theorem lookup_isSome_of_mem {d : Disk} {k : Key} (h : k ∈ d.map Prod.fst) :
    (lookup d k).isSome = true := by
  induction d with
  | nil => cases h
  | cons kn d ih =>
    simp only [lookup]
    by_cases hk : kn.1 = k
    · simp [hk]
    · simp only [hk, if_false]
      rcases List.mem_cons.1 h with e | h
      · exact absurd e.symm hk
      · exact ih h

theorem mem_of_lookup {d : Disk} {k : Key} {n : Node} (h : lookup d k = some n) :
    (k, n) ∈ d := by
  induction d with
  | nil => cases h
  | cons kn d ih =>
    simp only [lookup] at h
    split at h
    · rename_i hk
      injection h with h
      subst h hk
      exact List.mem_cons_self _ _
    · exact List.mem_cons_of_mem _ (ih h)

theorem mkdirs_daily {d : Disk} {t : Str} (hB : lookup d [kBackup] = some Node.dir)
    (hD : lookup d [kBackup, kDaily] = some Node.dir) :
    mkdirs d (ancestors [kBackup, kDaily, t]) = .ok d := by
  have e : ancestors [kBackup, kDaily, t] = [[kBackup], [kBackup, kDaily]] := by
    simp [ancestors, List.inits]
  rw [e]
  simp [mkdirs, hB, hD]

/-- A promotion copy that succeeds writes the bytes of the source at
`/backup/daily/<timestamp>`, and the timestamp is a valid name. -/
theorem copy_step {F : Faults} {d d1 : Disk} {f t : Str} {data : List Nat}
    (hB : lookup d [kBackup] = some Node.dir)
    (hD : lookup d [kBackup, kDaily] = some Node.dir)
    (hf : validName f = true) (hsrc : lookup d [kBackup, f] = some (Node.file data))
    (ht : '/' ∉ t)
    (hok : copySync F (backupPrefix ++ f) (dailyPrefix ++ t) d = .ok d1) :
    validName t = true ∧ d1 = write d [kBackup, kDaily, t] (Node.file data) := by
  unfold copySync at hok
  rw [resolve_backup hf, hsrc] at hok
  cases hv : validName t with
  | false =>
    exfalso
    rcases resolve_daily_invalid ht hv with e | e
    · rw [e, hD] at hok
      split_ifs at hok
    · rw [e, hB] at hok
      split_ifs at hok
  | true =>
    refine ⟨rfl, ?_⟩
    rw [resolve_daily_valid hv, mkdirs_daily hB hD] at hok
    split at hok
    · cases hok
    · simp only [List.cons.injEq, reduceCtorEq, and_false, List.ne_cons_self, false_and,
        if_false] at hok
      split at hok
      · cases hok
      · injection hok with hok
        exact hok.symm

theorem removeSync_ok {F : Faults} {p : Str} {d d1 : Disk}
    (h : removeSync F p d = .ok d1) :
    d1 = d.filter (fun kn => !(resolve p).isPrefixOf kn.1) := by
  unfold removeSync at h
  split at h
  · cases h
  · injection h with h
    exact h.symm

/-! ## `forEach` -/

theorem forEach_inv (P : Disk → Prop) (f : Entry → Disk → Except Err Disk) :
    ∀ (l : List Entry) (d : Disk), P d →
      (∀ b ∈ l, ∀ d0 d1, P d0 → f b d0 = .ok d1 → P d1) → P (forEach f l d).1
  | [], d, h, _ => h
  | b :: l, d, h, hs => by
    unfold forEach
    split
    · rename_i d1 hb
      exact forEach_inv P f l d1 (hs b (List.mem_cons_self _ _) d d1 h hb)
        (fun b1 hb1 => hs b1 (List.mem_cons_of_mem _ hb1))
    · exact h

theorem forEach_throw (f : Entry → Disk → Except Err Disk) :
    ∀ (done : List Entry) (b : Entry) (rest : List Entry) (d d1 : Disk) (e : Err),
      forEach f done d = (d1, none) → f b d1 = .error e →
      forEach f (done ++ b :: rest) d = (d1, some e)
  | [], b, rest, d, d1, e, h, hb => by
    simp [forEach] at h
    subst h
    simp [forEach, hb]
  | a :: done, b, rest, d, d1, e, h, hb => by
    cases ha : f a d with
    | error e1 => simp [forEach, ha] at h
    | ok d2 =>
      simp only [forEach, ha] at h
      simp only [List.cons_append, forEach, ha]
      exact forEach_throw f done b rest d2 d1 e h hb

/-! ## `cleanup` -/

/-- C10 (as stated, refuted): with one incremental file on each of two past
days and the copy of the first one failing, `cleanup()` ends with the
exception; the second entry is neither copied nor removed, and the disk is
unchanged. -/
theorem cleanup_failed_copy_aborts :
    (cleanup dayKey todayKey failFirstCopy diskTwoDays []).error = some Err.io ∧
    (cleanup dayKey todayKey failFirstCopy diskTwoDays []).disk = diskTwoDays ∧
    lookup (cleanup dayKey todayKey failFirstCopy diskTwoDays []).disk
      [kBackup, kDaily, "2021-03-15T10:00".toList] = none ∧
    lookup (cleanup dayKey todayKey failFirstCopy diskTwoDays []).disk
      [kBackup, "w$2021-03-15T10:00".toList] = some (Node.file [2]) := by
  decide

/-- C10 (amended): a failing copy or removal ends `cleanup()` with its
exception.  When the copy of a promote entry fails, the disk is the one reached
by the copies of the entries before it, and no later copy and no removal is
performed; when the removal of a purge entry fails, all copies and the removals
of the entries before it have been performed and no later removal is.  In both
cases the in-memory catalog is not reloaded. -/
theorem cleanup_stops_at_first_failure (dayOf : Str → Str) (today : Str) (F : Faults)
    (d : Disk) (backups items : List Entry) (h : load d = .ok items) :
    (∀ done b rest d1 e, (plan dayOf today items).move = done ++ b :: rest →
      forEach (fun b => copySync F b.path (dailyPrefix ++ b.timestamp)) done d = (d1, none) →
      copySync F b.path (dailyPrefix ++ b.timestamp) d1 = .error e →
      cleanup dayOf today F d backups = ⟨d1, backups, some e⟩) ∧
    (∀ d1 done b rest d2 e,
      forEach (fun b => copySync F b.path (dailyPrefix ++ b.timestamp))
        (plan dayOf today items).move d = (d1, none) →
      (plan dayOf today items).remove = done ++ b :: rest →
      forEach (fun b => removeSync F b.path) done d1 = (d2, none) →
      removeSync F b.path d2 = .error e →
      cleanup dayOf today F d backups = ⟨d2, backups, some e⟩) := by
  constructor
  · intro done b rest d1 e hm hdone hb
    have := forEach_throw (fun b => copySync F b.path (dailyPrefix ++ b.timestamp))
      done b rest d d1 e hdone hb
    rw [← hm] at this
    simp [cleanup, h, this]
  · intro d1 done b rest d2 e hc hr hdone hb
    have := forEach_throw (fun b => removeSync F b.path) done b rest d1 d2 e hdone hb
    rw [← hr] at this
    simp [cleanup, h, hc, this]

theorem cleanup_stops_at_first_failure_witness :
    cleanup dayKey todayKey failFirstCopy diskTwoDays priorCatalog =
      ⟨diskTwoDays, priorCatalog, some Err.io⟩ :=
  (cleanup_stops_at_first_failure dayKey todayKey failFirstCopy diskTwoDays priorCatalog
    [inc "w$2021-03-14T10:00" "2021-03-14T10:00", inc "w$2021-03-15T10:00" "2021-03-15T10:00"]
    (by decide)).1 [] (inc "w$2021-03-14T10:00" "2021-03-14T10:00")
      [inc "w$2021-03-14T10:00" "2021-03-14T10:00", inc "w$2021-03-15T10:00" "2021-03-15T10:00",
       inc "w$2021-03-15T10:00" "2021-03-15T10:00"]
      diskTwoDays Err.io (by decide) (by decide) (by decide)

/-! ## What `load` lists -/

theorem wellFormed_valid {d : Disk} (h : wellFormed d = true) {k : Key} {n : Node}
    (hm : (k, n) ∈ d) : ∀ seg ∈ k, validName seg = true := by
  unfold wellFormed at h
  rw [List.all_eq_true] at h
  have := h (k, n) hm
  rw [List.all_eq_true] at this
  exact this

theorem childOf_eq_some {dir k : Key} {f : Str} (h : childOf dir k = some f) :
    k = dir ++ [f] := by
  unfold childOf at h
  split at h
  · rename_i hd
    have hne : k ≠ [] := by
      rintro rfl
      simp at h
    rw [List.getLast?_eq_getLast _ hne] at h
    injection h with h
    rw [← hd, ← h]
    exact (List.dropLast_append_getLast hne).symm
  · cases h

theorem childOf_append (dir : Key) (f : Str) : childOf dir (dir ++ [f]) = some f := by
  simp [childOf]

theorem readdirSync_ok {d : Disk} {p : Str} {names : List Str}
    (h : readdirSync d p = .ok names) :
    lookup d (resolve p) = some Node.dir ∧
      ∀ f, f ∈ names ↔ (resolve p ++ [f]) ∈ d.map Prod.fst := by
  unfold readdirSync at h
  split at h
  · rename_i hl
    injection h with h
    refine ⟨hl, fun f => ?_⟩
    rw [← h, List.mem_filterMap]
    constructor
    · rintro ⟨kn, hkn, hc⟩
      rw [← childOf_eq_some hc]
      exact List.mem_map_of_mem _ hkn
    · intro hm
      obtain ⟨kn, hkn, he⟩ := List.mem_map.1 hm
      exact ⟨kn, hkn, by rw [he]; exact childOf_append _ _⟩
  · cases h
  · cases h

theorem filterNonDirs_mem (d : Disk) : ∀ (listed inc : List Str),
    filterNonDirs d listed = .ok inc →
    ∀ f, f ∈ inc ↔ f ∈ listed ∧ lstatIsDirectory d (backupPrefix ++ f) = .ok false
  | [], inc, h, f => by
    simp only [filterNonDirs, Except.ok.injEq] at h
    subst h
    simp
  | g :: listed, inc, h, f => by
    unfold filterNonDirs at h
    split at h
    · cases h
    · rename_i isDir hg
      split at h
      · cases h
      · rename_i rest hrest
        have ih := filterNonDirs_mem d listed rest hrest f
        injection h with h
        subst h
        cases isDir with
        | true =>
          simp only [if_true, ih, List.mem_cons]
          constructor
          · rintro ⟨h1, h2⟩; exact ⟨Or.inr h1, h2⟩
          · rintro ⟨h1 | h1, h2⟩
            · subst h1; rw [hg] at h2; cases h2
            · exact ⟨h1, h2⟩
        | false =>
          simp only [Bool.false_eq_true, if_false, List.mem_cons, ih]
          constructor
          · rintro (h1 | ⟨h1, h2⟩)
            · subst h1; exact ⟨Or.inl rfl, hg⟩
            · exact ⟨Or.inr h1, h2⟩
          · rintro ⟨h1 | h1, h2⟩
            · exact Or.inl h1
            · exact Or.inr ⟨h1, h2⟩

theorem load_dirs {d : Disk} {items : List Entry} (h : load d = .ok items) :
    lookup d [kBackup] = some Node.dir ∧ lookup d [kBackup, kDaily] = some Node.dir := by
  obtain ⟨daily, listed, inc, h1, h2, _, _⟩ := load_ok h
  have a := (readdirSync_ok h1).1
  have b := (readdirSync_ok h2).1
  rw [resolve_dailyDir] at a
  rw [resolve_backupDir] at b
  exact ⟨b, a⟩

theorem load_incremental {d : Disk} {items : List Entry} (hwf : wellFormed d = true)
    (h : load d = .ok items) {b : Entry} (hb : b ∈ items) (ht : b.type ≠ BackupType.daily) :
    IsInc d b := by
  obtain ⟨daily, listed, inc, _, h2, h3, rfl⟩ := load_ok h
  have hb1 := (orderBy_perm _).subset hb
  rcases List.mem_append.1 hb1 with hb1 | hb1
  · obtain ⟨f, _, rfl⟩ := List.mem_map.1 hb1
    exact absurd rfl ht
  · obtain ⟨f, hf, rfl⟩ := List.mem_map.1 hb1
    obtain ⟨hl, hs⟩ := (filterNonDirs_mem d listed inc h3 f).1 hf
    have hk := ((readdirSync_ok h2).2 f).1 hl
    rw [resolve_backupDir] at hk
    obtain ⟨kn, hkn, he⟩ := List.mem_map.1 hk
    have hv : validName f = true :=
      wellFormed_valid hwf (k := kn.1) (n := kn.2) hkn f (by rw [he]; simp)
    unfold lstatIsDirectory at hs
    rw [resolve_backup hv] at hs
    split at hs
    · rename_i n hn
      injection hs with hs
      cases n with
      | dir => simp at hs
      | file data => exact ⟨f, data, rfl, hv, hn⟩
    · cases hs

theorem load_incremental_conv {d : Disk} {items : List Entry} (h : load d = .ok items)
    {f : Str} {data : List Nat} (hv : validName f = true)
    (hl : lookup d [kBackup, f] = some (Node.file data)) : incrementalEntry f ∈ items := by
  obtain ⟨daily, listed, inc, _, h2, h3, rfl⟩ := load_ok h
  apply (orderBy_perm _).symm.subset
  apply List.mem_append_right
  apply List.mem_map_of_mem
  apply (filterNonDirs_mem d listed inc h3 f).2
  constructor
  · apply ((readdirSync_ok h2).2 f).2
    rw [resolve_backupDir]
    exact List.mem_map_of_mem Prod.fst (mem_of_lookup hl)
  · unfold lstatIsDirectory
    rw [resolve_backup hv, hl]
    rfl

theorem load_daily {d : Disk} {items : List Entry} (hwf : wellFormed d = true)
    (h : load d = .ok items) {b : Entry} (hb : b ∈ items) (ht : b.type = BackupType.daily) :
    ∃ f, b = dailyEntry f ∧ validName f = true := by
  obtain ⟨daily, listed, inc, h1, _, _, rfl⟩ := load_ok h
  have hb1 := (orderBy_perm _).subset hb
  rcases List.mem_append.1 hb1 with hb1 | hb1
  · obtain ⟨f, hf, rfl⟩ := List.mem_map.1 hb1
    have hk := ((readdirSync_ok h1).2 f).1 hf
    rw [resolve_dailyDir] at hk
    obtain ⟨kn, hkn, he⟩ := List.mem_map.1 hk
    exact ⟨f, rfl, wellFormed_valid hwf (k := kn.1) (n := kn.2) hkn f (by rw [he]; simp)⟩
  · obtain ⟨f, _, rfl⟩ := List.mem_map.1 hb1
    cases ht

/-! ## What the plan contains -/

theorem groupInsert_flatten (t k : Str) (b : Entry) (acc : List (Str × List Entry)) :
    ((((groupInsert k b acc).filter (fun g => decide (g.1 ≠ t))).map Prod.snd).flatten).Perm
      ((((acc.filter (fun g => decide (g.1 ≠ t))).map Prod.snd).flatten) ++
        (if k ≠ t then [b] else [])) := by
  induction acc with
  | nil =>
    by_cases hk : k = t <;> simp [groupInsert, hk]
  | cons g acc ih =>
    unfold groupInsert
    by_cases hg : g.1 = k
    · simp only [hg, if_true]
      by_cases hk : k = t
      · simp [hk, hg]
      · simp only [List.filter_cons, hk, hg, ne_eq, not_false_eq_true, decide_True, if_true,
          List.map_cons, List.flatten_cons, List.append_assoc]
        exact List.Perm.append_left _ List.perm_append_comm
    · simp only [hg, if_false, List.filter_cons]
      by_cases hgt : g.1 = t
      · simpa [hgt] using ih
      · simp only [hgt, ne_eq, not_false_eq_true, decide_True, if_true, List.map_cons,
          List.flatten_cons, List.append_assoc]
        exact List.Perm.append_left _ ih

theorem foldl_groupInsert_flatten (key : Entry → Str) (t : Str) (l : List Entry) :
    ∀ acc : List (Str × List Entry),
    (((((l.foldl (fun acc b => groupInsert (key b) b acc) acc)).filter
        (fun g => decide (g.1 ≠ t))).map Prod.snd).flatten).Perm
      ((((acc.filter (fun g => decide (g.1 ≠ t))).map Prod.snd).flatten) ++
        l.filter (fun b => decide (key b ≠ t))) := by
  induction l with
  | nil => intro acc; simp
  | cons b l ih =>
    intro acc
    simp only [List.foldl_cons]
    refine (ih _).trans ?_
    refine ((groupInsert_flatten t (key b) b acc).append_right _).trans ?_
    rw [List.append_assoc]
    apply List.Perm.append_left
    by_cases hk : key b = t <;> simp [List.filter_cons, hk]

theorem plan_remove_perm (dayOf : Str → Str) (today : Str) (items : List Entry) :
    (plan dayOf today items).remove.Perm
      (items.filter (fun b => decide (b.type ≠ BackupType.daily ∧ dayOf b.timestamp ≠ today))) := by
  rw [plan_eq]
  unfold pastGroups groupBy
  refine (foldl_groupInsert_flatten _ today _ []).trans ?_
  simp only [List.filter_nil, List.map_nil, List.flatten_nil, List.nil_append,
    List.filter_filter]
  apply List.Perm.of_eq
  apply List.filter_congr
  intro b _
  by_cases h1 : b.type = BackupType.daily <;> by_cases h2 : dayOf b.timestamp = today <;>
    simp [h1, h2]

theorem select_subset {b : List Entry} {x : Entry} (h : x ∈ select b) : x ∈ b := by
  unfold select at h
  simp only [List.filterMap_cons, List.filterMap_nil] at h
  apply (orderBy_perm b).subset
  split at h
  · split at h
    · cases h
    · rename_i l hl
      simp only [id_eq] at hl
      simp only [List.mem_singleton] at h
      subst h
      exact List.mem_of_getLast?_eq_some hl
  · rename_i m hm
    simp only [id_eq] at hm
    rcases List.mem_cons.1 h with rfl | h
    · exact List.getElem?_mem hm
    · split at h
      · cases h
      · rename_i l hl
        simp only [id_eq] at hl
        simp only [List.mem_singleton] at h
        subst h
        exact List.mem_of_getLast?_eq_some hl

theorem plan_move_subset (dayOf : Str → Str) (today : Str) (items : List Entry) :
    ∀ b ∈ (plan dayOf today items).move, b ∈ (plan dayOf today items).remove := by
  intro b hb
  rw [plan_eq] at hb ⊢
  simp only [List.mem_flatten, List.mem_map] at hb ⊢
  obtain ⟨l, ⟨g, hg, rfl⟩, hbl⟩ := hb
  exact ⟨g.2, ⟨g, hg, rfl⟩, select_subset hbl⟩

theorem mem_plan_remove {dayOf : Str → Str} {today : Str} {items : List Entry} {b : Entry} :
    b ∈ (plan dayOf today items).remove ↔
      b ∈ items ∧ b.type ≠ BackupType.daily ∧ dayOf b.timestamp ≠ today := by
  rw [(plan_remove_perm dayOf today items).mem_iff, List.mem_filter]
  simp

/-! ## The two phases of `cleanup` -/

theorem copyInv_refl (d : Disk) : CopyInv d d :=
  ⟨fun _ _ => rfl, fun _ x h => ⟨x, h⟩⟩

theorem isInc_path {d : Disk} {b : Entry} (h : IsInc d b) :
    ∃ f data, b = incrementalEntry f ∧ validName f = true ∧ resolve b.path = [kBackup, f] ∧
      lookup d [kBackup, f] = some (Node.file data) := by
  obtain ⟨f, data, rfl, hv, hl⟩ := h
  exact ⟨f, data, rfl, hv, resolve_backup hv, hl⟩

theorem copy_entry {F : Faults} {d0 d d1 : Disk} {b : Entry}
    (hB : lookup d0 [kBackup] = some Node.dir)
    (hD : lookup d0 [kBackup, kDaily] = some Node.dir)
    (hinv : CopyInv d0 d) (hb : IsInc d0 b)
    (hok : copySync F b.path (dailyPrefix ++ b.timestamp) d = .ok d1) :
    ∃ data, lookup d0 (resolve b.path) = some (Node.file data) ∧
      validName b.timestamp = true ∧
      d1 = write d [kBackup, kDaily, b.timestamp] (Node.file data) := by
  obtain ⟨f, data, rfl, hv, hp, hl⟩ := isInc_path hb
  have hs : '/' ∉ f := (validName_iff.1 hv).2.2.2
  have h1 : lookup d [kBackup] = some Node.dir := by
    rw [hinv.1 _ (by intro t; simp)]; exact hB
  have h2 : lookup d [kBackup, kDaily] = some Node.dir := by
    rw [hinv.1 _ (by intro t; simp)]; exact hD
  have h3 : lookup d [kBackup, f] = some (Node.file data) := by
    rw [hinv.1 _ (by intro t; simp)]; exact hl
  obtain ⟨hvt, hd1⟩ := copy_step h1 h2 hv h3 (slash_not_mem_timestampOf hs) hok
  exact ⟨data, by rw [hp]; exact hl, hvt, hd1⟩

theorem copyInv_write {d0 d : Disk} (hinv : CopyInv d0 d) (t : Str) (data : List Nat) :
    CopyInv d0 (write d [kBackup, kDaily, t] (Node.file data)) := by
  constructor
  · intro k hk
    rw [lookup_write, if_neg (hk t)]
    exact hinv.1 k hk
  · intro t1 x hx
    rw [lookup_write]
    by_cases e : [kBackup, kDaily, t1] = [kBackup, kDaily, t]
    · exact ⟨data, by rw [if_pos e]⟩
    · rw [if_neg e]; exact hinv.2 t1 x hx

theorem copies_inv {F : Faults} {d0 : Disk}
    (hB : lookup d0 [kBackup] = some Node.dir)
    (hD : lookup d0 [kBackup, kDaily] = some Node.dir)
    (l : List Entry) (hl : ∀ b ∈ l, IsInc d0 b) (d : Disk) (hinv : CopyInv d0 d) :
    CopyInv d0 (forEach (fun b => copySync F b.path (dailyPrefix ++ b.timestamp)) l d).1 := by
  apply forEach_inv (CopyInv d0) _ l d hinv
  intro b hb da db hda hok
  obtain ⟨data, _, _, rfl⟩ := copy_entry hB hD hda (hl b hb) hok
  exact copyInv_write hda _ _

theorem copies_other {F : Faults} {d0 : Disk}
    (hB : lookup d0 [kBackup] = some Node.dir)
    (hD : lookup d0 [kBackup, kDaily] = some Node.dir)
    (l : List Entry) (hl : ∀ b ∈ l, IsInc d0 b) (d : Disk) (hinv : CopyInv d0 d)
    (t : Str) (ht : ∀ b ∈ l, b.timestamp ≠ t) :
    lookup (forEach (fun b => copySync F b.path (dailyPrefix ++ b.timestamp)) l d).1
      [kBackup, kDaily, t] = lookup d [kBackup, kDaily, t] := by
  have := forEach_inv
    (fun x => CopyInv d0 x ∧ lookup x [kBackup, kDaily, t] = lookup d [kBackup, kDaily, t])
    (fun b => copySync F b.path (dailyPrefix ++ b.timestamp)) l d ⟨hinv, rfl⟩
    (by
      intro b hb da db hda hok
      obtain ⟨data, _, _, rfl⟩ := copy_entry hB hD hda.1 (hl b hb) hok
      refine ⟨copyInv_write hda.1 _ _, ?_⟩
      rw [lookup_write, if_neg]
      · exact hda.2
      · intro e
        simp only [List.cons.injEq, and_true, true_and] at e
        exact ht b hb e.symm)
  exact this.2

theorem copies_content {F : Faults} {d0 : Disk}
    (hB : lookup d0 [kBackup] = some Node.dir)
    (hD : lookup d0 [kBackup, kDaily] = some Node.dir) :
    ∀ (l : List Entry) (d d1 : Disk), CopyInv d0 d → (∀ b ∈ l, IsInc d0 b) →
      forEach (fun b => copySync F b.path (dailyPrefix ++ b.timestamp)) l d = (d1, none) →
      ∀ e ∈ l, (∀ b ∈ l, b.timestamp = e.timestamp → b = e) →
      ∀ data, lookup d0 (resolve e.path) = some (Node.file data) →
        lookup d1 [kBackup, kDaily, e.timestamp] = some (Node.file data)
  | [], _, _, _, _, _, e, he, _, _, _ => by cases he
  | a :: l, d, d1, hinv, hl, hrun, e, he, hu, data, hdata => by
    cases ha : copySync F a.path (dailyPrefix ++ a.timestamp) d with
    | error x => simp [forEach, ha] at hrun
    | ok d2 =>
      simp only [forEach, ha] at hrun
      obtain ⟨da, hda, _, hd2⟩ := copy_entry hB hD hinv (hl a (List.mem_cons_self _ _)) ha
      have hinv2 : CopyInv d0 d2 := hd2 ▸ copyInv_write hinv _ _
      have hl2 : ∀ b ∈ l, IsInc d0 b := fun b hb => hl b (List.mem_cons_of_mem _ hb)
      by_cases hel : e ∈ l
      · exact copies_content hB hD l d2 d1 hinv2 hl2 hrun e hel
          (fun b hb => hu b (List.mem_cons_of_mem _ hb)) data hdata
      · have hea : e = a := by
          rcases List.mem_cons.1 he with h | h
          · exact h
          · exact absurd h hel
        subst hea
        have hne : ∀ b ∈ l, b.timestamp ≠ e.timestamp := fun b hb hbt =>
          hel (hu b (List.mem_cons_of_mem _ hb) hbt ▸ hb)
        have h1 := copies_other (F := F) hB hD l hl2 d2 hinv2 e.timestamp hne
        rw [hrun] at h1
        rw [h1, hd2, lookup_write, if_pos rfl]
        rw [hda] at hdata
        exact hdata

theorem removes_frame {F : Faults} (l : List Entry) (d : Disk) (k : Key)
    (hk : ∀ r ∈ l, (resolve r.path).isPrefixOf k = false) :
    lookup (forEach (fun b => removeSync F b.path) l d).1 k = lookup d k := by
  apply forEach_inv (fun x => lookup x k = lookup d k) _ l d rfl
  intro b hb da db hda hok
  rw [removeSync_ok hok, lookup_filter_key (fun x => !(resolve b.path).isPrefixOf x)]
  simp [hk b hb, hda]

theorem removes_none {F : Faults} (l : List Entry) (d : Disk) (k : Key)
    (hk : lookup d k = none) :
    lookup (forEach (fun b => removeSync F b.path) l d).1 k = none := by
  apply forEach_inv (fun x => lookup x k = none) _ l d hk
  intro b _ da db hda hok
  rw [removeSync_ok hok, lookup_filter_key (fun x => !(resolve b.path).isPrefixOf x)]
  simp [hda]

theorem removes_done {F : Faults} :
    ∀ (l : List Entry) (d d2 : Disk),
      forEach (fun b => removeSync F b.path) l d = (d2, none) →
      ∀ e ∈ l, lookup d2 (resolve e.path) = none
  | [], _, _, _, e, he => by cases he
  | a :: l, d, d2, hrun, e, he => by
    cases ha : removeSync F a.path d with
    | error x => simp [forEach, ha] at hrun
    | ok d1 =>
      simp only [forEach, ha] at hrun
      rcases List.mem_cons.1 he with rfl | he
      · have h0 : lookup d1 (resolve e.path) = none := by
          rw [removeSync_ok ha, lookup_filter_key (fun x => !(resolve e.path).isPrefixOf x)]
          simp
        have := removes_none (F := F) l d1 _ h0
        rw [hrun] at this
        exact this
      · exact removes_done l d1 d2 hrun e he

theorem cleanup_disk_cases (dayOf : Str → Str) (today : Str) (F : Faults) {d : Disk}
    (backups : List Entry) {items : List Entry} (h : load d = .ok items) :
    (cleanup dayOf today F d backups).disk =
        (forEach (fun b => copySync F b.path (dailyPrefix ++ b.timestamp))
          (plan dayOf today items).move d).1 ∨
    (cleanup dayOf today F d backups).disk =
        (forEach (fun b => removeSync F b.path) (plan dayOf today items).remove
          (forEach (fun b => copySync F b.path (dailyPrefix ++ b.timestamp))
            (plan dayOf today items).move d).1).1 := by
  unfold cleanup
  simp only [h]
  split
  · rename_i d1 e hc
    left; rw [hc]
  · rename_i d1 hc
    right
    rw [hc]
    split
    · rename_i d2 e hr
      rw [hr]
    · rename_i d2 hr
      rw [hr]
      split <;> rfl

theorem cleanup_ok {dayOf : Str → Str} {today : Str} {F : Faults} {d : Disk}
    {backups items : List Entry} (h : load d = .ok items)
    (hok : (cleanup dayOf today F d backups).error = none) :
    ∃ d1 d2, forEach (fun b => copySync F b.path (dailyPrefix ++ b.timestamp))
        (plan dayOf today items).move d = (d1, none) ∧
      forEach (fun b => removeSync F b.path) (plan dayOf today items).remove d1 = (d2, none) ∧
      load d2 = .ok (cleanup dayOf today F d backups).backups ∧
      (cleanup dayOf today F d backups).disk = d2 := by
  cases hc : forEach (fun b => copySync F b.path (dailyPrefix ++ b.timestamp))
      (plan dayOf today items).move d with
  | mk d1 e1 =>
    cases e1 with
    | some e => simp [cleanup, h, hc] at hok
    | none =>
      cases hr : forEach (fun b => removeSync F b.path) (plan dayOf today items).remove d1 with
      | mk d2 e2 =>
        cases e2 with
        | some e => simp [cleanup, h, hc, hr] at hok
        | none =>
          cases hl : load d2 with
          | error e => simp [cleanup, h, hc, hr, hl] at hok
          | ok reloaded =>
            exact ⟨d1, d2, rfl, hr, by simp [cleanup, h, hc, hr, hl],
              by simp [cleanup, h, hc, hr, hl]⟩

theorem removes_sub {F : Faults} (l : List Entry) (d : Disk) (k : Key) (n : Node)
    (h : lookup (forEach (fun b => removeSync F b.path) l d).1 k = some n) :
    lookup d k = some n := by
  have := forEach_inv (fun x => ∀ m, lookup x k = some m → lookup d k = some m)
    (fun b => removeSync F b.path) l d (fun _ hm => hm)
    (by
      intro b _ da db hda hok m hm
      rw [removeSync_ok hok, lookup_filter_key (fun x => !(resolve b.path).isPrefixOf x)] at hm
      split at hm
      · exact hda m hm
      · cases hm)
  exact this n h

theorem copies_valid {F : Faults} {d0 : Disk}
    (hB : lookup d0 [kBackup] = some Node.dir)
    (hD : lookup d0 [kBackup, kDaily] = some Node.dir) :
    ∀ (l : List Entry) (d d1 : Disk), CopyInv d0 d → (∀ b ∈ l, IsInc d0 b) →
      forEach (fun b => copySync F b.path (dailyPrefix ++ b.timestamp)) l d = (d1, none) →
      ∀ e ∈ l, validName e.timestamp = true
  | [], _, _, _, _, _, e, he => by cases he
  | a :: l, d, d1, hinv, hl, hrun, e, he => by
    cases ha : copySync F a.path (dailyPrefix ++ a.timestamp) d with
    | error x => simp [forEach, ha] at hrun
    | ok d2 =>
      simp only [forEach, ha] at hrun
      obtain ⟨da, _, hv, hd2⟩ := copy_entry hB hD hinv (hl a (List.mem_cons_self _ _)) ha
      rcases List.mem_cons.1 he with rfl | he
      · exact hv
      · exact copies_valid hB hD l d2 d1 (hd2 ▸ copyInv_write hinv _ _)
          (fun b hb => hl b (List.mem_cons_of_mem _ hb)) hrun e he

theorem plan_remove_isInc {dayOf : Str → Str} {today : Str} {d : Disk} {items : List Entry}
    (hwf : wellFormed d = true) (h : load d = .ok items) :
    ∀ b ∈ (plan dayOf today items).remove, IsInc d b := fun _ hb =>
  load_incremental hwf h (mem_plan_remove.1 hb).1 (mem_plan_remove.1 hb).2.1

theorem plan_move_isInc {dayOf : Str → Str} {today : Str} {d : Disk} {items : List Entry}
    (hwf : wellFormed d = true) (h : load d = .ok items) :
    ∀ b ∈ (plan dayOf today items).move, IsInc d b := fun b hb =>
  plan_remove_isInc hwf h b (plan_move_subset dayOf today items b hb)

theorem isPrefixOf_two (a b : Str) (k : Key) :
    List.isPrefixOf [a, b] k = true ↔ ∃ rest, k = a :: b :: rest := by
  rw [List.isPrefixOf_iff_prefix]
  constructor
  · rintro ⟨t, rfl⟩; exact ⟨t, rfl⟩
  · rintro ⟨t, rfl⟩; exact ⟨t, rfl⟩

/-- Whatever the outcome of `cleanup`, a file below `/backup/daily` is still a
file afterwards. -/
theorem cleanup_keeps_daily {dayOf : Str → Str} {today : Str} {F : Faults} {d : Disk}
    {backups items : List Entry} (hwf : wellFormed d = true) (h : load d = .ok items)
    (rest : Key) (x : List Nat)
    (hx : lookup d (kBackup :: kDaily :: rest) = some (Node.file x)) :
    ∃ y, lookup (cleanup dayOf today F d backups).disk (kBackup :: kDaily :: rest) =
      some (Node.file y) := by
  obtain ⟨hB, hD⟩ := load_dirs h
  have hinv := copies_inv (F := F) hB hD (plan dayOf today items).move
    (plan_move_isInc hwf h) d (copyInv_refl d)
  have h1 : ∃ y, lookup (forEach (fun b => copySync F b.path (dailyPrefix ++ b.timestamp))
      (plan dayOf today items).move d).1 (kBackup :: kDaily :: rest) = some (Node.file y) := by
    by_cases hr : ∃ t, rest = [t]
    · obtain ⟨t, rfl⟩ := hr
      exact hinv.2 t x hx
    · refine ⟨x, ?_⟩
      rw [hinv.1 _ (by
        intro t e
        simp only [List.cons.injEq, true_and] at e
        exact hr ⟨t, e⟩)]
      exact hx
  rcases cleanup_disk_cases dayOf today F backups h
    with e | e
  · rw [e]; exact h1
  · rw [e, removes_frame]
    · exact h1
    · intro r hr
      obtain ⟨g, data, _, _, hp, hl⟩ := isInc_path (plan_remove_isInc hwf h r hr)
      rw [hp]
      cases hpre : List.isPrefixOf [kBackup, g] (kBackup :: kDaily :: rest) with
      | false => rfl
      | true =>
        obtain ⟨t, ht⟩ := (isPrefixOf_two _ _ _).1 hpre
        simp only [List.cons.injEq, true_and] at ht
        rw [← ht.1, hD] at hl
        cases hl

/-- Whatever the outcome of `cleanup`, the file of an incremental entry of the
current day is as it was. -/
theorem cleanup_keeps_today {dayOf : Str → Str} {today : Str} {F : Faults} {d : Disk}
    {backups items : List Entry} (hwf : wellFormed d = true) (h : load d = .ok items)
    {b : Entry} (hb : b ∈ items) (ht : b.type ≠ BackupType.daily)
    (hday : dayOf b.timestamp = today) :
    lookup (cleanup dayOf today F d backups).disk (resolve b.path) =
      lookup d (resolve b.path) := by
  obtain ⟨hB, hD⟩ := load_dirs h
  have hinv := copies_inv (F := F) hB hD (plan dayOf today items).move
    (plan_move_isInc hwf h) d (copyInv_refl d)
  obtain ⟨f, data, rfl, hv, hp, hl⟩ := isInc_path (load_incremental hwf h hb ht)
  rw [hp]
  have h1 := hinv.1 [kBackup, f] (by intro t; simp)
  rcases cleanup_disk_cases dayOf today F backups h
    with e | e
  · rw [e]; exact h1
  · rw [e, removes_frame]
    · exact h1
    · intro r hr
      obtain ⟨g, _, rfl, _, hpg, _⟩ := isInc_path (plan_remove_isInc hwf h r hr)
      rw [hpg]
      cases hpre : List.isPrefixOf [kBackup, g] [kBackup, f] with
      | false => rfl
      | true =>
        obtain ⟨t, ht⟩ := (isPrefixOf_two _ _ _).1 hpre
        simp only [List.cons.injEq, true_and] at ht
        rw [ht.1] at hday
        exact absurd hday (mem_plan_remove.1 hr).2.2

/-- Whatever the outcome of `cleanup`, a node `/backup/daily/<t>` whose name `t`
is not the timestamp of a promoted entry is as it was. -/
theorem cleanup_keeps_unpromoted {dayOf : Str → Str} {today : Str} {F : Faults} {d : Disk}
    {backups items : List Entry} (hwf : wellFormed d = true) (h : load d = .ok items)
    (t : Str) (ht : ∀ e ∈ (plan dayOf today items).move, e.timestamp ≠ t) :
    lookup (cleanup dayOf today F d backups).disk [kBackup, kDaily, t] =
      lookup d [kBackup, kDaily, t] := by
  obtain ⟨hB, hD⟩ := load_dirs h
  have h1 := copies_other (F := F) hB hD (plan dayOf today items).move
    (plan_move_isInc hwf h) d (copyInv_refl d) t ht
  rcases cleanup_disk_cases dayOf today F backups h with e | e
  · rw [e]; exact h1
  · rw [e]
    have h2 := removes_frame (F := F) (plan dayOf today items).remove
      (forEach (fun b => copySync F b.path (dailyPrefix ++ b.timestamp))
        (plan dayOf today items).move d).1 [kBackup, kDaily, t]
      (by
        intro r hr
        obtain ⟨g, data, _, _, hp, hlg⟩ := isInc_path (plan_remove_isInc hwf h r hr)
        rw [hp]
        cases hpre : List.isPrefixOf [kBackup, g] [kBackup, kDaily, t] with
        | false => rfl
        | true =>
          obtain ⟨u, hu⟩ := (isPrefixOf_two _ _ _).1 hpre
          simp only [List.cons.injEq, true_and] at hu
          rw [← hu.1, hD] at hlg
          cases hlg)
    rw [h2]
    exact h1

/-- C2 (as stated, refuted): the daily file `2021-03-14T10:00` belongs to a
daily entry, which is in neither collection, and `cleanup()` replaces its
content by that of the promoted incremental file with the same timestamp. -/
theorem cleanup_overwrites_daily_file :
    load diskOverwrite =
      .ok [dailyOverwritten, inc "w$2021-03-14T10:00" "2021-03-14T10:00"] ∧
    dailyOverwritten ∉ (plan dayKey todayKey
      [dailyOverwritten, inc "w$2021-03-14T10:00" "2021-03-14T10:00"]).move ∧
    dailyOverwritten ∉ (plan dayKey todayKey
      [dailyOverwritten, inc "w$2021-03-14T10:00" "2021-03-14T10:00"]).remove ∧
    lookup diskOverwrite (resolve dailyOverwritten.path) = some (Node.file [9]) ∧
    lookup (cleanup dayKey todayKey noFaults diskOverwrite []).disk
      (resolve dailyOverwritten.path) = some (Node.file [1]) := by
  decide

/-- C2 (amended): the purge collection is a permutation of the incremental
entries of `load()` whose day differs from the current day; every element of
the promote or purge collection is such an entry, so no daily entry and no
incremental entry of the current day is in either.  Whatever the outcome of
`cleanup()`, the file of an incremental entry of the current day is unchanged,
and so is the file of every daily entry whose path is not the destination
`/backup/daily/<timestamp>` of a promoted entry; the file of a daily entry whose
path is such a destination is still a file (it is overwritten by the promotion,
never removed). -/
theorem cleanup_frame (dayOf : Str → Str) (today : Str) (F : Faults) (d : Disk)
    (backups items : List Entry) (hwf : wellFormed d = true) (h : load d = .ok items) :
    (plan dayOf today items).remove.Perm
      (items.filter (fun b =>
        decide (b.type = BackupType.incremental ∧ dayOf b.timestamp ≠ today))) ∧
    (∀ b, b ∈ (plan dayOf today items).move ∨ b ∈ (plan dayOf today items).remove →
      b ∈ items ∧ b.type = BackupType.incremental ∧ dayOf b.timestamp ≠ today) ∧
    (∀ b ∈ items, b.type = BackupType.incremental → dayOf b.timestamp = today →
      lookup (cleanup dayOf today F d backups).disk (resolve b.path) =
        lookup d (resolve b.path)) ∧
    (∀ b ∈ items, b.type = BackupType.daily → ∀ x,
      lookup d (resolve b.path) = some (Node.file x) →
      ∃ y, lookup (cleanup dayOf today F d backups).disk (resolve b.path) =
        some (Node.file y)) ∧
    (∀ b ∈ items, b.type = BackupType.daily →
      (∀ e ∈ (plan dayOf today items).move, dailyPrefix ++ e.timestamp ≠ b.path) →
      lookup (cleanup dayOf today F d backups).disk (resolve b.path) =
        lookup d (resolve b.path)) := by
  have hty : ∀ b : Entry, b.type ≠ BackupType.daily ↔ b.type = BackupType.incremental := by
    intro b; cases b.type <;> simp
  refine ⟨?_, ?_, ?_, ?_, ?_⟩
  · refine (plan_remove_perm dayOf today items).trans (List.Perm.of_eq ?_)
    apply List.filter_congr
    intro b _
    simp [hty]
  · intro b hb
    have hr : b ∈ (plan dayOf today items).remove := by
      rcases hb with hb | hb
      · exact plan_move_subset dayOf today items b hb
      · exact hb
    obtain ⟨h1, h2, h3⟩ := mem_plan_remove.1 hr
    exact ⟨h1, (hty b).1 h2, h3⟩
  · intro b hb ht hday
    exact cleanup_keeps_today hwf h hb ((hty b).2 ht) hday
  · intro b hb ht x hx
    obtain ⟨f, rfl, hv⟩ := load_daily hwf h hb ht
    have hp : resolve (dailyEntry f).path = kBackup :: kDaily :: [f] := resolve_daily_valid hv
    rw [hp] at hx ⊢
    exact cleanup_keeps_daily hwf h [f] x hx
  · intro b hb ht hne
    obtain ⟨f, rfl, hv⟩ := load_daily hwf h hb ht
    have hp : resolve (dailyEntry f).path = [kBackup, kDaily, f] := resolve_daily_valid hv
    rw [hp]
    apply cleanup_keeps_unpromoted hwf h f
    intro e he hef
    exact hne e he (by rw [hef]; rfl)

theorem cleanup_frame_witness :
    wellFormed diskWeek = true ∧ load diskWeek = .ok itemsWeek ∧
    lookup (cleanup dayKey todayKey noFaults diskWeek []).disk
        (resolve (inc "w$2021-03-20T09:00" "2021-03-20T09:00").path) =
      lookup diskWeek (resolve (inc "w$2021-03-20T09:00" "2021-03-20T09:00").path) ∧
    lookup (cleanup dayKey todayKey noFaults diskWeek []).disk
        (resolve (dailyEntry "old".toList).path) =
      lookup diskWeek (resolve (dailyEntry "old".toList).path) :=
  ⟨by decide, by decide,
    (cleanup_frame dayKey todayKey noFaults diskWeek [] itemsWeek (by decide)
      (by decide)).2.2.1 (inc "w$2021-03-20T09:00" "2021-03-20T09:00") (by decide) rfl
      (by decide),
    (cleanup_frame dayKey todayKey noFaults diskWeek [] itemsWeek (by decide)
      (by decide)).2.2.2.2 (dailyEntry "old".toList) (by decide) rfl (by decide)⟩

/-- C8: when `cleanup()` ends without exception, all copies were performed
before the removals; for every promoted entry whose timestamp no other promoted
entry shares, the file `/backup/daily/<timestamp>` holds afterwards the bytes
its incremental file held before, and that incremental file is gone; every file
below `/backup/daily` is still a file; and every removed path is a name
directly in `/backup`. -/
theorem cleanup_promotes_files (dayOf : Str → Str) (today : Str) (F : Faults) (d : Disk)
    (backups items : List Entry) (hwf : wellFormed d = true) (h : load d = .ok items)
    (hok : (cleanup dayOf today F d backups).error = none) :
    (∃ d1, forEach (fun b => copySync F b.path (dailyPrefix ++ b.timestamp))
        (plan dayOf today items).move d = (d1, none) ∧
      forEach (fun b => removeSync F b.path) (plan dayOf today items).remove d1 =
        ((cleanup dayOf today F d backups).disk, none)) ∧
    (∀ e ∈ (plan dayOf today items).move,
      (∀ b ∈ (plan dayOf today items).move, b.timestamp = e.timestamp → b = e) →
      ∃ data, lookup d (resolve e.path) = some (Node.file data) ∧
        lookup (cleanup dayOf today F d backups).disk (resolve (dailyPrefix ++ e.timestamp)) =
          some (Node.file data) ∧
        lookup (cleanup dayOf today F d backups).disk (resolve e.path) = none) ∧
    (∀ rest x, lookup d (kBackup :: kDaily :: rest) = some (Node.file x) →
      ∃ y, lookup (cleanup dayOf today F d backups).disk (kBackup :: kDaily :: rest) =
        some (Node.file y)) ∧
    (∀ b ∈ (plan dayOf today items).remove, ∃ f, resolve b.path = [kBackup, f]) := by
  obtain ⟨hB, hD⟩ := load_dirs h
  obtain ⟨d1, d2, hc, hr, _, hdisk⟩ := cleanup_ok h hok
  refine ⟨⟨d1, hc, by rw [hdisk]; exact hr⟩, ?_, ?_, ?_⟩
  · intro e he hu
    obtain ⟨f, data, rfl, hv, hp, hl⟩ := isInc_path (plan_move_isInc hwf h e he)
    have hvt := copies_valid hB hD _ d d1 (copyInv_refl d) (plan_move_isInc hwf h) hc _ he
    have h1 := copies_content hB hD _ d d1 (copyInv_refl d) (plan_move_isInc hwf h) hc _ he hu
      data (by rw [hp]; exact hl)
    have hd2 : d2 = (forEach (fun b => removeSync F b.path)
        (plan dayOf today items).remove d1).1 := by rw [hr]
    refine ⟨data, by rw [hp]; exact hl, ?_, ?_⟩
    · rw [hdisk, resolve_daily_valid hvt, hd2, removes_frame]
      · exact h1
      · intro r hr1
        obtain ⟨g, gdata, _, _, hpg, hlg⟩ := isInc_path (plan_remove_isInc hwf h r hr1)
        rw [hpg]
        cases hpre : List.isPrefixOf [kBackup, g]
            [kBackup, kDaily, (incrementalEntry f).timestamp] with
        | false => rfl
        | true =>
          obtain ⟨t, ht⟩ := (isPrefixOf_two _ _ _).1 hpre
          simp only [List.cons.injEq, true_and] at ht
          rw [← ht.1, hD] at hlg
          cases hlg
    · rw [hdisk]
      exact removes_done _ d1 d2 hr _ (plan_move_subset dayOf today items _ he)
  · intro rest x hx
    exact cleanup_keeps_daily hwf h rest x hx
  · intro b hb
    obtain ⟨f, _, _, _, hp, _⟩ := isInc_path (plan_remove_isInc hwf h b hb)
    exact ⟨f, hp⟩

theorem cleanup_promotes_files_witness :
    wellFormed diskWeek = true ∧ load diskWeek = .ok itemsWeek ∧
    (cleanup dayKey todayKey noFaults diskWeek []).error = none ∧
    ∃ data, lookup diskWeek (resolve (inc "w$2021-03-15T10:00" "2021-03-15T10:00").path) =
        some (Node.file data) ∧
      lookup (cleanup dayKey todayKey noFaults diskWeek []).disk
        (resolve (dailyPrefix ++ (inc "w$2021-03-15T10:00" "2021-03-15T10:00").timestamp)) =
          some (Node.file data) ∧
      lookup (cleanup dayKey todayKey noFaults diskWeek []).disk
        (resolve (inc "w$2021-03-15T10:00" "2021-03-15T10:00").path) = none :=
  ⟨by decide, by decide, by decide,
    (cleanup_promotes_files dayKey todayKey noFaults diskWeek [] itemsWeek (by decide)
      (by decide) (by decide)).2.1 (inc "w$2021-03-15T10:00" "2021-03-15T10:00") (by decide)
      (by decide)⟩

/-! ## Idempotence -/

theorem validName_kBackup : validName kBackup = true := by decide

theorem validName_kDaily : validName kDaily = true := by decide

theorem wellFormed_iff {d : Disk} :
    wellFormed d = true ↔ ∀ kn ∈ d, ∀ seg ∈ kn.1, validName seg = true := by
  unfold wellFormed
  rw [List.all_eq_true]
  constructor
  · intro h kn hkn
    exact List.all_eq_true.1 (h kn hkn)
  · intro h kn hkn
    exact List.all_eq_true.2 (h kn hkn)

theorem wellFormed_write {d : Disk} (h : wellFormed d = true) {t : Str}
    (ht : validName t = true) (n : Node) :
    wellFormed (write d [kBackup, kDaily, t] n) = true := by
  rw [wellFormed_iff] at h ⊢
  intro kn hkn seg hseg
  unfold write at hkn
  rcases List.mem_append.1 hkn with hkn | hkn
  · exact h kn (List.mem_filter.1 hkn).1 seg hseg
  · rw [List.mem_singleton] at hkn
    subst hkn
    simp only [List.mem_cons, List.mem_singleton, List.not_mem_nil, or_false] at hseg
    rcases hseg with rfl | rfl | rfl
    · exact validName_kBackup
    · exact validName_kDaily
    · exact ht

theorem wellFormed_filter {d : Disk} (h : wellFormed d = true) (q : Key × Node → Bool) :
    wellFormed (d.filter q) = true := by
  rw [wellFormed_iff] at h ⊢
  intro kn hkn seg hseg
  exact h kn (List.mem_filter.1 hkn).1 seg hseg

theorem copies_wellFormed {F : Faults} {d0 : Disk} (hwf : wellFormed d0 = true)
    (hB : lookup d0 [kBackup] = some Node.dir)
    (hD : lookup d0 [kBackup, kDaily] = some Node.dir)
    (l : List Entry) (hl : ∀ b ∈ l, IsInc d0 b) :
    wellFormed (forEach (fun b => copySync F b.path (dailyPrefix ++ b.timestamp)) l d0).1
      = true := by
  have := forEach_inv (fun x => CopyInv d0 x ∧ wellFormed x = true)
    (fun b => copySync F b.path (dailyPrefix ++ b.timestamp)) l d0 ⟨copyInv_refl d0, hwf⟩
    (by
      intro b hb da db hda hok
      obtain ⟨data, _, hv, rfl⟩ := copy_entry hB hD hda.1 (hl b hb) hok
      exact ⟨copyInv_write hda.1 _ _, wellFormed_write hda.2 hv _⟩)
  exact this.2

theorem removes_wellFormed {F : Faults} (l : List Entry) (d : Disk)
    (hwf : wellFormed d = true) :
    wellFormed (forEach (fun b => removeSync F b.path) l d).1 = true := by
  apply forEach_inv (fun x => wellFormed x = true) _ l d hwf
  intro b _ da db hda hok
  rw [removeSync_ok hok]
  exact wellFormed_filter hda _

theorem cleanup_load_ok {dayOf : Str → Str} {today : Str} {F : Faults} {d : Disk}
    {backups : List Entry} (hok : (cleanup dayOf today F d backups).error = none) :
    ∃ items, load d = .ok items := by
  cases hl : load d with
  | error e => simp [cleanup, hl] at hok
  | ok items => exact ⟨items, rfl⟩

theorem pastGroups_eq_nil {dayOf : Str → Str} {today : Str} {items : List Entry}
    (h : ∀ b ∈ items, b.type ≠ BackupType.daily → dayOf b.timestamp = today) :
    pastGroups dayOf today items = [] := by
  have hr : (plan dayOf today items).remove = [] := by
    apply List.eq_nil_iff_forall_not_mem.2
    intro b hb
    obtain ⟨h1, h2, h3⟩ := mem_plan_remove.1 hb
    exact h3 (h b h1 h2)
  rw [plan_eq] at hr
  cases hg : pastGroups dayOf today items with
  | nil => rfl
  | cons g gs =>
    exfalso
    have hne := pastGroups_nonempty dayOf today items g (hg ▸ List.mem_cons_self _ _)
    rw [hg] at hr
    simp only [List.map_cons, List.flatten_cons, List.append_eq_nil] at hr
    exact hne hr.1

/-- C7: when a first `cleanup()` on a well-formed disk ends without exception,
the catalog reloaded from the resulting disk has no past-day incremental entry:
a second `cleanup()` on the same day, whatever its failures oracle, computes
empty promote and purge collections, leaves the disk and the catalog as they
are, and ends without exception. -/
theorem cleanup_idempotent (dayOf : Str → Str) (today : Str) (F F2 : Faults) (d : Disk)
    (backups : List Entry) (hwf : wellFormed d = true)
    (hok : (cleanup dayOf today F d backups).error = none) :
    load (cleanup dayOf today F d backups).disk =
      .ok (cleanup dayOf today F d backups).backups ∧
    plan dayOf today (cleanup dayOf today F d backups).backups = ⟨[], []⟩ ∧
    cleanup dayOf today F2 (cleanup dayOf today F d backups).disk
        (cleanup dayOf today F d backups).backups =
      ⟨(cleanup dayOf today F d backups).disk, (cleanup dayOf today F d backups).backups,
        none⟩ := by
  obtain ⟨items, h⟩ := cleanup_load_ok hok
  obtain ⟨hB, hD⟩ := load_dirs h
  obtain ⟨d1, d2, hc, hr, hl2, hdisk⟩ := cleanup_ok h hok
  have hd1 : d1 = (forEach (fun b => copySync F b.path (dailyPrefix ++ b.timestamp))
      (plan dayOf today items).move d).1 := by rw [hc]
  have hd2 : d2 = (forEach (fun b => removeSync F b.path)
      (plan dayOf today items).remove d1).1 := by rw [hr]
  have hinv : CopyInv d d1 := hd1 ▸ copies_inv (F := F) hB hD (plan dayOf today items).move
    (plan_move_isInc hwf h) d (copyInv_refl d)
  have hwf1 : wellFormed d1 = true :=
    hd1 ▸ copies_wellFormed (F := F) hwf hB hD _ (plan_move_isInc hwf h)
  have hwf2 : wellFormed d2 = true := hd2 ▸ removes_wellFormed (F := F) _ d1 hwf1
  have htoday : ∀ b ∈ (cleanup dayOf today F d backups).backups,
      b.type ≠ BackupType.daily → dayOf b.timestamp = today := by
    intro b hb ht
    obtain ⟨f, data, rfl, hv, hp, hl⟩ := isInc_path (load_incremental hwf2 hl2 hb ht)
    have h1 : lookup d1 [kBackup, f] = some (Node.file data) :=
      removes_sub (F := F) (plan dayOf today items).remove d1 _ _ (hd2 ▸ hl)
    have h0 : lookup d [kBackup, f] = some (Node.file data) := by
      rw [← hinv.1 [kBackup, f] (by intro t; simp)]; exact h1
    have hmem := load_incremental_conv h hv h0
    by_contra hne
    have hrem : incrementalEntry f ∈ (plan dayOf today items).remove :=
      mem_plan_remove.2 ⟨hmem, ht, hne⟩
    have := removes_done _ d1 d2 hr _ hrem
    rw [hp, hl] at this
    cases this
  have hplan : plan dayOf today (cleanup dayOf today F d backups).backups = ⟨[], []⟩ := by
    rw [plan_eq, pastGroups_eq_nil htoday]
    rfl
  refine ⟨by rw [hdisk]; exact hl2, hplan, ?_⟩
  rw [hdisk]
  generalize (cleanup dayOf today F d backups).backups = reloaded at hl2 hplan
  simp only [cleanup, hl2, hplan, forEach]

theorem cleanup_idempotent_witness :
    wellFormed diskWeek = true ∧
    (cleanup dayKey todayKey noFaults diskWeek []).error = none ∧
    cleanup dayKey todayKey failFirstCopy (cleanup dayKey todayKey noFaults diskWeek []).disk
        (cleanup dayKey todayKey noFaults diskWeek []).backups =
      ⟨(cleanup dayKey todayKey noFaults diskWeek []).disk,
        (cleanup dayKey todayKey noFaults diskWeek []).backups, none⟩ :=
  ⟨by decide, by decide,
    (cleanup_idempotent dayKey todayKey noFaults failFirstCopy diskWeek [] (by decide)
      (by decide)).2.2⟩

/-! ## Malformed file names -/

theorem dotSavegame_ne_nil : dotSavegame ≠ [] := by decide

theorem replaceFirst_absent (pat rep : Str) (hp : pat ≠ []) :
    ∀ s : Str, ¬ pat <:+: s → replaceFirst pat rep s = s
  | [], _ => by simp [replaceFirst, hp]
  | c :: cs, h => by
    unfold replaceFirst
    split
    · rename_i hpre
      exact absurd (List.isPrefixOf_iff_prefix.1 hpre).isInfix h
    · rw [replaceFirst_absent pat rep hp cs (fun hi => h (List.infix_cons hi))]

theorem timestampOf_of_no_dollar {f : Str} (h : '$' ∉ f) : timestampOf f = [] := by
  unfold timestampOf
  rw [split_of_not_mem _ _ h]
  rfl

theorem nameOf_of_no_dollar {f : Str} (h : '$' ∉ f) : nameOf f = f := by
  unfold nameOf
  rw [split_of_not_mem _ _ h]
  rfl

theorem segment_after_dollar {name seg tail : Str} (hn : '$' ∉ name) (hs : '$' ∉ seg)
    (ht : tail = [] ∨ ∃ t, tail = '$' :: t) :
    (split '$' (name ++ '$' :: (seg ++ tail))).getD 1 [] = seg := by
  rw [split_append_sep _ _ _ hn]
  rcases ht with rfl | ⟨t, rfl⟩
  · rw [List.append_nil, split_of_not_mem _ _ hs]
    rfl
  · rw [split_append_sep _ _ _ hs]
    rfl

/-- C11: `load` fails only when a listing fails, whatever the file names are;
for a file name without `$` the entry has the whole file name as name and the
empty timestamp; and when the segment between the first `$` and the next one
(or the end) does not contain `.savegame`, the timestamp is that segment
unchanged. -/
theorem load_tolerates_malformed_names :
    (∀ d daily listed incremental, readdirSync d dailyDir = .ok daily →
      readdirSync d backupDir = .ok listed → filterNonDirs d listed = .ok incremental →
      load d = .ok (orderBy (daily.map dailyEntry ++ incremental.map incrementalEntry))) ∧
    (∀ f : Str, '$' ∉ f →
      (dailyEntry f).name = f ∧ (dailyEntry f).timestamp = [] ∧
      (incrementalEntry f).name = f ∧ (incrementalEntry f).timestamp = []) ∧
    (∀ name seg tail : Str, '$' ∉ name → '$' ∉ seg → (tail = [] ∨ ∃ t, tail = '$' :: t) →
      ¬ dotSavegame <:+: seg →
      (dailyEntry (name ++ '$' :: (seg ++ tail))).timestamp = seg ∧
      (incrementalEntry (name ++ '$' :: (seg ++ tail))).timestamp = seg) := by
  refine ⟨?_, ?_, ?_⟩
  · intro d daily listed inc h1 h2 h3
    simp [load, h1, h2, h3]
  · intro f hf
    exact ⟨nameOf_of_no_dollar hf, timestampOf_of_no_dollar hf, nameOf_of_no_dollar hf,
      timestampOf_of_no_dollar hf⟩
  · intro name seg tail hn hs ht hi
    have e : timestampOf (name ++ '$' :: (seg ++ tail)) = seg := by
      unfold timestampOf
      rw [segment_after_dollar hn hs ht]
      exact replaceFirst_absent _ _ dotSavegame_ne_nil seg hi
    exact ⟨e, e⟩

theorem load_tolerates_malformed_names_witness :
    (dailyEntry "plain".toList).timestamp = [] ∧
    (incrementalEntry "SAVE$2021.03.14$x".toList).timestamp = "2021.03.14".toList :=
  ⟨(load_tolerates_malformed_names.2.1 "plain".toList (by decide)).2.1,
    (load_tolerates_malformed_names.2.2 "SAVE".toList "2021.03.14".toList "$x".toList
      (by decide) (by decide) (Or.inr ⟨"x".toList, rfl⟩) (by decide)).2⟩

/-! ## Atomicity of the backup interval -/

theorem captureReduce_throw (F : Faults) (ts : Str) :
    ∀ (done : List Str) (file : Str) (rest : List Str) (d : Disk) (result : List Entry)
      (d1 : Disk) (r : List Entry) (e : Err),
      captureReduce F ts done d result = (d1, .ok r) →
      copySync F (savesPrefix ++ file) (backupPrefix ++ file) d1 = .error e →
      captureReduce F ts (done ++ file :: rest) d result = (d1, .error e)
  | [], file, rest, d, result, d1, r, e, h, hc => by
    simp only [captureReduce, Prod.mk.injEq] at h
    obtain ⟨rfl, _⟩ := h
    simp [captureReduce, hc]
  | a :: done, file, rest, d, result, d1, r, e, h, hc => by
    cases ha : copySync F (savesPrefix ++ a) (backupPrefix ++ a) d with
    | error x => simp [captureReduce, ha] at h
    | ok d2 =>
      simp only [captureReduce, ha] at h
      simp only [List.cons_append, captureReduce, ha]
      exact captureReduce_throw F ts done file rest d2 _ d1 r e h hc

/-- C15: an invocation of the backup interval leaves the catalog exactly as it
was when the listing fails and when the copy of any file fails, also when files
before it were copied; the catalog changes only in an invocation that ends
without exception, where every copy succeeded. -/
theorem backupInterval_atomic (F : Faults) (ts : Str) (d : Disk) (backups : List Entry) :
    (∀ e, readdirSync d savesDir = .error e →
      backupInterval F ts d backups = ⟨d, backups, some e⟩) ∧
    (∀ files done file rest d1 r e, readdirSync d savesDir = .ok files →
      files.filter (fun file => decide (extname file = dotSavegame)) = done ++ file :: rest →
      captureReduce F ts done d backups = (d1, .ok r) →
      copySync F (savesPrefix ++ file) (backupPrefix ++ file) d1 = .error e →
      backupInterval F ts d backups = ⟨d1, backups, some e⟩) ∧
    ((backupInterval F ts d backups).error ≠ none →
      (backupInterval F ts d backups).backups = backups) ∧
    ((backupInterval F ts d backups).backups ≠ backups →
      ∃ files, readdirSync d savesDir = .ok files ∧
        captureReduce F ts (files.filter (fun file => decide (extname file = dotSavegame)))
          d backups =
          ((backupInterval F ts d backups).disk, .ok (backupInterval F ts d backups).backups)) := by
  refine ⟨?_, ?_, ?_, ?_⟩
  · intro e he
    simp [backupInterval, he]
  · intro files done file rest d1 r e hf hsplit hdone hc
    have := captureReduce_throw F ts done file rest d backups d1 r e hdone hc
    rw [← hsplit] at this
    simp [backupInterval, hf, this]
  · intro he
    cases hf : readdirSync d savesDir with
    | error e => simp [backupInterval, hf]
    | ok files =>
      cases hr : captureReduce F ts
          (files.filter (fun file => decide (extname file = dotSavegame))) d backups with
      | mk d1 res =>
        cases res with
        | error e => simp [backupInterval, hf, hr]
        | ok r => simp [backupInterval, hf, hr] at he
  · intro hb
    cases hf : readdirSync d savesDir with
    | error e => simp [backupInterval, hf] at hb
    | ok files =>
      cases hr : captureReduce F ts
          (files.filter (fun file => decide (extname file = dotSavegame))) d backups with
      | mk d1 res =>
        cases res with
        | error e => simp [backupInterval, hf, hr] at hb
        | ok r => exact ⟨files, rfl, by simp [backupInterval, hf, hr]⟩

theorem backupInterval_atomic_witness :
    backupInterval failC captureTime diskSaves priorCatalog =
      ⟨(captureReduce failC captureTime ["A.savegame".toList, "B$7.savegame".toList]
          diskSaves priorCatalog).1, priorCatalog, some Err.io⟩ :=
  (backupInterval_atomic failC captureTime diskSaves priorCatalog).2.1
    ["A.savegame".toList, "notes.txt".toList, "B$7.savegame".toList, "C.savegame".toList]
    ["A.savegame".toList, "B$7.savegame".toList] "C.savegame".toList []
    (captureReduce failC captureTime ["A.savegame".toList, "B$7.savegame".toList]
      diskSaves priorCatalog).1
    (priorCatalog ++ [capturedEntry captureTime "A.savegame".toList,
      capturedEntry captureTime "B$7.savegame".toList])
    Err.io (by decide) (by decide) (by decide) (by decide)

/-! ## Groups are never empty -/

/-- C16: every group of the day grouping, that of the current day included, is
non-empty; the index `floor(|n-1|/2)` is below its size `n`; the entry at that
index and the last entry exist and `compact` keeps both; and every entry of the
promote collection is in the purge collection. -/
theorem cleanup_groups_nonempty (dayOf : Str → Str) (today : Str) (items : List Entry) :
    (∀ g ∈ groupBy (fun b => dayOf b.timestamp)
        (items.filter (fun b => decide (b.type ≠ BackupType.daily))),
      g.2 ≠ [] ∧
      (((orderBy g.2).length : Int) - 1).natAbs / 2 < (orderBy g.2).length ∧
      ∃ mid latest,
        (orderBy g.2)[(((orderBy g.2).length : Int) - 1).natAbs / 2]? = some mid ∧
        (orderBy g.2).getLast? = some latest ∧ select g.2 = [mid, latest]) ∧
    (∀ b ∈ (plan dayOf today items).move, b ∈ (plan dayOf today items).remove) := by
  refine ⟨?_, plan_move_subset dayOf today items⟩
  intro g hg
  have hne := groupBy_nonempty _ _ g hg
  have hlen : (orderBy g.2).length = g.2.length := orderBy_length g.2
  have hpos : 0 < g.2.length := List.length_pos.2 hne
  have hidx : (((orderBy g.2).length : Int) - 1).natAbs / 2 = (g.2.length - 1) / 2 := by
    rw [hlen]; omega
  obtain ⟨mid, latest, h1, h2, h3⟩ := select_of_ne_nil hne
  refine ⟨hne, by rw [hidx, hlen]; omega, mid, latest, by rw [hidx]; exact h1, ?_, h3⟩
  rw [List.getLast?_eq_getElem?, hlen]
  exact h2

/-! ## `stop` -/

theorem filter_ne_of_lt (l : List Timer) (n : Nat) (h : ∀ t ∈ l, t.id < n) :
    l.filter (fun t => decide (t.id ≠ n)) = l := by
  apply List.filter_eq_self.2
  intro t ht
  have := h t ht
  simp only [ne_eq, decide_not, Bool.not_eq_true', decide_eq_false_iff_not]
  omega

theorem init_cases (E : Str → Bool) (d : Disk) (r : Runtime) :
    ((init E d created r).service = created ∧ (init E d created r).runtime = r) ∨
    ((init E d created r).service.backupIntervalID = some r.nextId ∧
      (init E d created r).service.cleanupIntervalID = some (r.nextId + 1) ∧
      (init E d created r).runtime =
        ⟨r.nextId + 2, r.active ++
          [⟨r.nextId, Job.backup, 600000⟩, ⟨r.nextId + 1, Job.cleanup, 60 * 60 * 1000⟩]⟩) := by
  unfold init
  split
  · left; exact ⟨rfl, rfl⟩
  · split
    · left; exact ⟨rfl, rfl⟩
    · split
      · left; exact ⟨rfl, rfl⟩
      · right
        simp [setInterval]

theorem stop_after_init_active (E : Str → Bool) (d : Disk) (r : Runtime)
    (hfresh : ∀ t ∈ r.active, t.id < r.nextId) :
    (initStop E d r).runtime.active = r.active := by
  unfold initStop stop
  rcases init_cases E d r with ⟨hs, hr⟩ | ⟨hb, hc, hr⟩
  · rw [hs, hr]; rfl
  · rw [hb, hc, hr]
    simp only [clearInterval, List.filter_append, List.filter_filter]
    have h1 : r.active.filter
        (fun t => decide (t.id ≠ r.nextId + 1) && decide (t.id ≠ r.nextId)) = r.active := by
      apply List.filter_eq_self.2
      intro t ht
      have := hfresh t ht
      simp only [ne_eq, decide_not, Bool.and_eq_true, Bool.not_eq_true',
        decide_eq_false_iff_not]
      omega
    rw [h1]
    simp

/-- C13: `stop()` never ends with an exception.  Called before `init()` it
leaves the timers as they are; called after `init()`, once or twice in a row,
it leaves active exactly the schedules that were active before `init()`, so
neither the backup interval nor the cleanup interval stays active. -/
theorem stop_leaves_no_schedule (E : Str → Bool) (d : Disk) (r : Runtime)
    (hfresh : ∀ t ∈ r.active, t.id < r.nextId) :
    (stop d created r).error = none ∧ (stop d created r).runtime = r ∧
    (initStop E d r).error = none ∧ (initStop E d r).runtime.active = r.active ∧
    (initStopStop E d r).error = none ∧ (initStopStop E d r).runtime.active = r.active := by
  refine ⟨rfl, rfl, rfl, stop_after_init_active E d r hfresh, rfl, ?_⟩
  have h1 := stop_after_init_active E d r hfresh
  have hsvc : (initStop E d r).service = (init E d created r).service := rfl
  unfold initStopStop stop
  rw [hsvc]
  have hlt : ∀ t ∈ (initStop E d r).runtime.active, t.id < r.nextId := by
    rw [h1]; exact hfresh
  rcases init_cases E d r with ⟨hs, _⟩ | ⟨hb, hc, _⟩
  · rw [hs]
    exact h1
  · rw [hb, hc]
    simp only [clearInterval, List.filter_filter]
    rw [← h1]
    apply List.filter_eq_self.2
    intro t ht
    have := hlt t ht
    simp only [ne_eq, decide_not, Bool.and_eq_true, Bool.not_eq_true',
      decide_eq_false_iff_not]
    omega

theorem stop_leaves_no_schedule_witness :
    (init noMkdirFault [] created idleRuntime).error = none ∧
    (init noMkdirFault [] created idleRuntime).runtime.active.length = 2 ∧
    (stop [] created idleRuntime).runtime.active = [] ∧
    (initStop noMkdirFault [] idleRuntime).runtime.active = [] ∧
    (initStopStop noMkdirFault [] idleRuntime).runtime.active = [] :=
  ⟨by decide, by decide, by decide,
    (stop_leaves_no_schedule noMkdirFault [] idleRuntime (by decide)).2.2.2.1,
    (stop_leaves_no_schedule noMkdirFault [] idleRuntime (by decide)).2.2.2.2.2⟩

/-! ## The cached catalog -/

/-- C12 (as stated, refuted): from the same disk, on the same day and with the
same failing copy, the run started with an empty catalog ends with the empty
catalog and the run started with `priorCatalog` ends with `priorCatalog`; the
two differ, and neither is what `load()` returns on the resulting disk. -/
theorem cleanup_failed_keeps_cached_catalog :
    (cleanup dayKey todayKey failFirstCopy diskTwoDays []).backups = [] ∧
    (cleanup dayKey todayKey failFirstCopy diskTwoDays priorCatalog).backups = priorCatalog ∧
    (cleanup dayKey todayKey failFirstCopy diskTwoDays []).backups ≠
      (cleanup dayKey todayKey failFirstCopy diskTwoDays priorCatalog).backups ∧
    load (cleanup dayKey todayKey failFirstCopy diskTwoDays priorCatalog).disk ≠
      .ok (cleanup dayKey todayKey failFirstCopy diskTwoDays priorCatalog).backups := by
  decide

/-- C12 (amended): two runs of `cleanup()` from the same disk, day and failures
that differ only in the cached catalog compute their collections from `load()`
alone, reach the same disk and end the same way; when they end without
exception their catalogs are equal, and equal to `load()` of the resulting
disk; when they end with an exception each leaves its catalog as it was. -/
theorem cleanup_ignores_cached_catalog (dayOf : Str → Str) (today : Str) (F : Faults)
    (d : Disk) (b1 b2 : List Entry) :
    (cleanup dayOf today F d b1).disk = (cleanup dayOf today F d b2).disk ∧
    (cleanup dayOf today F d b1).error = (cleanup dayOf today F d b2).error ∧
    ((cleanup dayOf today F d b1).error = none →
      (cleanup dayOf today F d b1).backups = (cleanup dayOf today F d b2).backups ∧
      load (cleanup dayOf today F d b1).disk = .ok (cleanup dayOf today F d b1).backups) ∧
    ((cleanup dayOf today F d b1).error ≠ none →
      (cleanup dayOf today F d b1).backups = b1 ∧
      (cleanup dayOf today F d b2).backups = b2) := by
  cases hl : load d with
  | error e => simp [cleanup, hl]
  | ok items =>
    cases hc : forEach (fun b => copySync F b.path (dailyPrefix ++ b.timestamp))
        (plan dayOf today items).move d with
    | mk d1 e1 =>
      cases e1 with
      | some e => simp [cleanup, hl, hc]
      | none =>
        cases hr : forEach (fun b => removeSync F b.path)
            (plan dayOf today items).remove d1 with
        | mk d2 e2 =>
          cases e2 with
          | some e => simp [cleanup, hl, hc, hr]
          | none =>
            cases hl2 : load d2 with
            | error e => simp [cleanup, hl, hc, hr, hl2]
            | ok reloaded => simp [cleanup, hl, hc, hr, hl2]

theorem cleanup_ignores_cached_catalog_witness :
    (cleanup dayKey todayKey noFaults diskWeek []).error = none ∧
    (cleanup dayKey todayKey noFaults diskWeek []).backups =
      (cleanup dayKey todayKey noFaults diskWeek priorCatalog).backups ∧
    load (cleanup dayKey todayKey noFaults diskWeek []).disk =
      .ok (cleanup dayKey todayKey noFaults diskWeek []).backups :=
  ⟨by decide,
    (cleanup_ignores_cached_catalog dayKey todayKey noFaults diskWeek [] priorCatalog).2.2.1
      (by decide)⟩

/-! ## Reading a promoted file back -/

theorem not_mem_of_mem_split (c : Char) : ∀ (s seg : Str), seg ∈ split c s → c ∉ seg
  | [], seg, h => by
    simp [split] at h
    subst h
    simp
  | y :: ys, seg, h => by
    unfold split at h
    split at h
    · rcases List.mem_cons.1 h with rfl | h
      · simp
      · exact not_mem_of_mem_split c ys seg h
    · rename_i hy
      split at h
      · rename_i hs
        exact absurd hs (split_ne_nil _ _)
      · rename_i p ps hs
        rcases List.mem_cons.1 h with rfl | h
        · intro hm
          rcases List.mem_cons.1 hm with e | hm
          · exact hy e.symm
          · exact not_mem_of_mem_split c ys p (hs ▸ List.mem_cons_self _ _) hm
        · exact not_mem_of_mem_split c ys seg (hs ▸ List.mem_cons_of_mem _ h)

theorem dollar_not_mem_timestampOf (f : Str) : '$' ∉ timestampOf f := by
  intro hm
  unfold timestampOf at hm
  rcases mem_replaceFirst _ _ _ _ hm with hm | hm
  · rw [List.getD_eq_getElem?_getD] at hm
    cases hg : (split '$' f)[1]? with
    | none => rw [hg] at hm; cases hm
    | some v =>
      rw [hg] at hm
      exact not_mem_of_mem_split '$' f v (List.getElem?_mem hg) hm
  · revert hm; decide

theorem dailyEntry_of_no_dollar {t : Str} (h : '$' ∉ t) :
    dailyEntry t = ⟨t, dailyPrefix ++ t, [], BackupType.daily⟩ := by
  unfold dailyEntry
  rw [nameOf_of_no_dollar h, timestampOf_of_no_dollar h]

theorem load_timestamps_no_dollar {d : Disk} {items : List Entry} (h : load d = .ok items) :
    ∀ b ∈ items, '$' ∉ b.timestamp := by
  obtain ⟨daily, listed, inc, _, _, _, rfl⟩ := load_ok h
  intro b hb
  rcases List.mem_append.1 ((orderBy_perm _).subset hb) with hb | hb
  · obtain ⟨f, _, rfl⟩ := List.mem_map.1 hb
    exact dollar_not_mem_timestampOf f
  · obtain ⟨f, _, rfl⟩ := List.mem_map.1 hb
    exact dollar_not_mem_timestampOf f

theorem load_daily_conv {d : Disk} {items : List Entry} (h : load d = .ok items)
    {t : Str} {n : Node} (hl : lookup d [kBackup, kDaily, t] = some n) :
    dailyEntry t ∈ items := by
  obtain ⟨daily, listed, inc, h1, _, _, rfl⟩ := load_ok h
  apply (orderBy_perm _).symm.subset
  apply List.mem_append_left
  apply List.mem_map_of_mem
  apply ((readdirSync_ok h1).2 t).2
  rw [resolve_dailyDir]
  exact List.mem_map_of_mem Prod.fst (mem_of_lookup hl)

theorem copies_keep_file {F : Faults} {d0 : Disk}
    (hB : lookup d0 [kBackup] = some Node.dir)
    (hD : lookup d0 [kBackup, kDaily] = some Node.dir)
    (l : List Entry) (hl : ∀ b ∈ l, IsInc d0 b) (d : Disk) (hinv : CopyInv d0 d)
    (t : Str) (ht : ∃ y, lookup d [kBackup, kDaily, t] = some (Node.file y)) :
    ∃ y, lookup (forEach (fun b => copySync F b.path (dailyPrefix ++ b.timestamp)) l d).1
      [kBackup, kDaily, t] = some (Node.file y) := by
  have := forEach_inv
    (fun x => CopyInv d0 x ∧ ∃ y, lookup x [kBackup, kDaily, t] = some (Node.file y))
    (fun b => copySync F b.path (dailyPrefix ++ b.timestamp)) l d ⟨hinv, ht⟩
    (by
      intro b hb da db hda hok
      obtain ⟨data, _, _, rfl⟩ := copy_entry hB hD hda.1 (hl b hb) hok
      refine ⟨copyInv_write hda.1 _ _, ?_⟩
      rw [lookup_write]
      split
      · exact ⟨data, rfl⟩
      · exact hda.2)
  exact this.2

theorem copies_written {F : Faults} {d0 : Disk}
    (hB : lookup d0 [kBackup] = some Node.dir)
    (hD : lookup d0 [kBackup, kDaily] = some Node.dir) :
    ∀ (l : List Entry) (d d1 : Disk), CopyInv d0 d → (∀ b ∈ l, IsInc d0 b) →
      forEach (fun b => copySync F b.path (dailyPrefix ++ b.timestamp)) l d = (d1, none) →
      ∀ e ∈ l, ∃ y, lookup d1 [kBackup, kDaily, e.timestamp] = some (Node.file y)
  | [], _, _, _, _, _, e, he => by cases he
  | a :: l, d, d1, hinv, hl, hrun, e, he => by
    cases ha : copySync F a.path (dailyPrefix ++ a.timestamp) d with
    | error x => simp [forEach, ha] at hrun
    | ok d2 =>
      simp only [forEach, ha] at hrun
      obtain ⟨da, _, _, hd2⟩ := copy_entry hB hD hinv (hl a (List.mem_cons_self _ _)) ha
      have hinv2 : CopyInv d0 d2 := hd2 ▸ copyInv_write hinv _ _
      have hl2 : ∀ b ∈ l, IsInc d0 b := fun b hb => hl b (List.mem_cons_of_mem _ hb)
      rcases List.mem_cons.1 he with rfl | he
      · have h2 : ∃ y, lookup d2 [kBackup, kDaily, e.timestamp] = some (Node.file y) :=
          ⟨da, by rw [hd2, lookup_write, if_pos rfl]⟩
        have := copies_keep_file (F := F) hB hD l hl2 d2 hinv2 e.timestamp h2
        rw [hrun] at this
        exact this
      · exact copies_written hB hD l d2 d1 hinv2 hl2 hrun e he

theorem removes_keep_daily {F : Faults} {d0 : Disk}
    (hD : lookup d0 [kBackup, kDaily] = some Node.dir)
    (l : List Entry) (hl : ∀ b ∈ l, IsInc d0 b) (d : Disk) (rest : Key) :
    lookup (forEach (fun b => removeSync F b.path) l d).1 (kBackup :: kDaily :: rest) =
      lookup d (kBackup :: kDaily :: rest) := by
  apply removes_frame
  intro r hr
  obtain ⟨g, data, _, _, hp, hlg⟩ := isInc_path (hl r hr)
  rw [hp]
  cases hpre : List.isPrefixOf [kBackup, g] (kBackup :: kDaily :: rest) with
  | false => rfl
  | true =>
    obtain ⟨t, ht⟩ := (isPrefixOf_two _ _ _).1 hpre
    simp only [List.cons.injEq, true_and] at ht
    rw [← ht.1, hD] at hlg
    cases hlg

/-- C14: no timestamp returned by `load()` contains `$`.  When `cleanup()` ends
without exception, the catalog it stores is `load()` of the resulting disk, and
for every promoted entry `e` the file `/backup/daily/<e.timestamp>` exists and
is read back as the daily entry whose name is `e.timestamp` and whose timestamp
is empty; in the reloaded catalog that entry comes before every entry with a
non-empty timestamp. -/
theorem promoted_reads_back_as_name (dayOf : Str → Str) (today : Str) (F : Faults) (d : Disk)
    (backups items : List Entry) (hwf : wellFormed d = true) (h : load d = .ok items)
    (hok : (cleanup dayOf today F d backups).error = none) :
    (∀ b ∈ items, '$' ∉ b.timestamp) ∧
    load (cleanup dayOf today F d backups).disk =
      .ok (cleanup dayOf today F d backups).backups ∧
    ∀ e ∈ (plan dayOf today items).move,
      dailyEntry e.timestamp = ⟨e.timestamp, dailyPrefix ++ e.timestamp, [], BackupType.daily⟩ ∧
      (∃ y, lookup (cleanup dayOf today F d backups).disk
        (resolve (dailyPrefix ++ e.timestamp)) = some (Node.file y)) ∧
      dailyEntry e.timestamp ∈ (cleanup dayOf today F d backups).backups ∧
      ∀ i j (hi : i < (cleanup dayOf today F d backups).backups.length)
        (hj : j < (cleanup dayOf today F d backups).backups.length),
        (cleanup dayOf today F d backups).backups.get ⟨i, hi⟩ = dailyEntry e.timestamp →
        ((cleanup dayOf today F d backups).backups.get ⟨j, hj⟩).timestamp ≠ [] → i < j := by
  obtain ⟨hB, hD⟩ := load_dirs h
  obtain ⟨d1, d2, hc, hr, hl2, hdisk⟩ := cleanup_ok h hok
  refine ⟨load_timestamps_no_dollar h, by rw [hdisk]; exact hl2, ?_⟩
  intro e he
  have hnd : '$' ∉ e.timestamp :=
    load_timestamps_no_dollar h e
      (mem_plan_remove.1 (plan_move_subset dayOf today items e he)).1
  have hvt := copies_valid hB hD _ d d1 (copyInv_refl d) (plan_move_isInc hwf h) hc _ he
  obtain ⟨y, hy⟩ := copies_written hB hD _ d d1 (copyInv_refl d) (plan_move_isInc hwf h) hc _ he
  have hd2 : d2 = (forEach (fun b => removeSync F b.path)
      (plan dayOf today items).remove d1).1 := by rw [hr]
  have hy2 : lookup d2 [kBackup, kDaily, e.timestamp] = some (Node.file y) := by
    rw [hd2, removes_keep_daily (F := F) hD _ (plan_remove_isInc hwf h) d1 [e.timestamp]]
    exact hy
  have hde := dailyEntry_of_no_dollar hnd
  refine ⟨hde, ⟨y, by rw [hdisk, resolve_daily_valid hvt]; exact hy2⟩,
    load_daily_conv hl2 hy2, ?_⟩
  intro i j hi hj hie hjt
  by_contra hij
  obtain ⟨_, _, _, _, _, _, hitems⟩ := load_ok hl2
  have hpw : ((cleanup dayOf today F d backups).backups).Pairwise tsLe := by
    rw [hitems]; exact orderBy_pairwise _
  have hit : ((cleanup dayOf today F d backups).backups.get ⟨i, hi⟩).timestamp = [] := by
    rw [hie, hde]
  rcases Nat.lt_or_ge j i with hlt | hge
  · have := List.pairwise_iff_get.1 hpw ⟨j, hj⟩ ⟨i, hi⟩ (by simpa using hlt)
    unfold tsLe at this
    rw [hit] at this
    exact hjt (strLe_nil_right this)
  · have hji : j = i := by omega
    subst hji
    exact hjt hit

theorem promoted_reads_back_as_name_witness :
    wellFormed diskWeek = true ∧ load diskWeek = .ok itemsWeek ∧
    (cleanup dayKey todayKey noFaults diskWeek []).error = none ∧
    dailyEntry (inc "w$2021-03-15T11:00" "2021-03-15T11:00").timestamp ∈
      (cleanup dayKey todayKey noFaults diskWeek []).backups :=
  ⟨by decide, by decide, by decide,
    ((promoted_reads_back_as_name dayKey todayKey noFaults diskWeek [] itemsWeek (by decide)
      (by decide) (by decide)).2.2 (inc "w$2021-03-15T11:00" "2021-03-15T11:00")
      (by decide)).2.2.1⟩

end Backup
